import Mathlib

/-!
Verification development for the skills CLI store-reconciliation engine.

The TypeScript sources are shallowly embedded as pure Lean functions:
- filesystem trees become the `FsNode`/`FsEntries` mutual inductive,
  with a directory's entry order standing for the enumeration order
  `readdir` happens to return;
- `Bun.hash` is an abstract parameter `h : String → Nat` whose hex
  rendering `.toString(16)` is the executable `toHex`;
- `String.prototype.localeCompare` (default locale) is modelled for
  ASCII strings by `localeOrd`: case-insensitive primary comparison,
  ties broken lowercase-before-uppercase, matching the ICU root
  collation that Bun/Node use;
- JavaScript's stable `Array.prototype.sort(cmp)` is embedded as
  `List.insertionSort` over the relation `cmp a b ≤ 0` (insertion sort
  is stable, and ECMAScript requires `sort` to be a stable sort, so on
  any comparator the two agree);
- a JavaScript `Map` keyed by strings is an association list updated
  in place by `mset`, preserving JS `Map.set` insertion-order
  semantics.
-/

namespace SkillsCli

mutual

/-- Filesystem trees as seen by `getDirectoryFiles`: a regular file with
its byte content, a readable directory with its (enumeration-ordered)
entries, or a directory whose `readdir` fails (permissions). A missing
path is represented by `Option.none` at use sites. -/
inductive FsNode where
  | file (content : String)
  | dir (entries : FsEntries)
  | unreadableDir
deriving DecidableEq, Repr

/-- Entry list of a directory, in enumeration order. -/
inductive FsEntries where
  | nil
  | cons (name : String) (child : FsNode) (rest : FsEntries)
deriving DecidableEq, Repr

end

/-- Names of the immediate entries of a directory listing. -/
def entryNames : FsEntries → List String
  | .nil => []
  | .cons n _ rest => n :: entryNames rest

/-- Boolean no-duplicates check on a list of names. -/
def namesNodup : List String → Bool
  | [] => true
  | n :: rest => !(rest.contains n) && namesNodup rest

/-- A legal file/directory name: nonempty and slash-free, as every name
returned by a real `readdir` is. -/
def okName (n : String) : Bool := n ≠ "" && !(n.data.contains '/')

mutual

/-- Well-formedness of a tree: every directory's entry names are
pairwise distinct legal names, recursively. Real filesystems satisfy
this; it is what makes the relative paths produced by
`getDirectoryFiles` pairwise distinct. -/
def wfNode : FsNode → Bool
  | .file _ => true
  | .unreadableDir => true
  | .dir es => namesNodup (entryNames es) && wfEntries es

def wfEntries : FsEntries → Bool
  | .nil => true
  | .cons n c rest => okName n && wfNode c && wfEntries rest

end

/-- Relative-path construction from `getDirectoryFiles`:
`basePath ? basePath + "/" + entry.name : entry.name`. -/
def relPath (base name : String) : String :=
  if base = "" then name else base ++ "/" ++ name

/-- Hex digit table used by `toHex` (JavaScript `Number.toString(16)`
uses lowercase digits). -/
def hexDigit (k : Nat) : Char := "0123456789abcdef".data.getD k 'x'

/-- Accumulator loop of `toHex`, with a fuel argument so the recursion
is structural (and hence kernel-evaluable). The fuel never runs out at
the call site, where it starts at `n` and the value shrinks by a factor
of 16 per step. -/
def toHexAux : Nat → Nat → List Char → List Char
  | 0, _, acc => acc
  | fuel + 1, n, acc =>
    if n = 0 then acc else toHexAux fuel (n / 16) (hexDigit (n % 16) :: acc)

/-- Lowercase hexadecimal rendering of a natural number, the model of
JavaScript's `.toString(16)` on the nonnegative hash values returned by
`Bun.hash`. -/
def toHex (n : Nat) : String :=
  if n = 0 then "0" else String.mk (toHexAux n n [])

/-- Primary collation weight of an ASCII character: case is ignored
(uppercase letters take their lowercase code point). Modelled from the
ICU root collation backing the default-locale `localeCompare`. -/
def primChar (c : Char) : Nat :=
  if 65 ≤ c.toNat ∧ c.toNat ≤ 90 then c.toNat + 32 else c.toNat

/-- Tertiary collation weight: lowercase (and non-letters) before
uppercase, as in the ICU root collation. -/
def caseWeight (c : Char) : Nat :=
  if 65 ≤ c.toNat ∧ c.toNat ≤ 90 then 1 else 0

/-- Lexicographic comparison of weight lists. -/
def lexNat : List Nat → List Nat → Ordering
  | [], [] => .eq
  | [], _ :: _ => .lt
  | _ :: _, [] => .gt
  | a :: as, b :: bs =>
    if a < b then .lt else if b < a then .gt else lexNat as bs

/-- Model of `s.localeCompare(t)` (default locale, ASCII strings) as an
`Ordering`: compare primary (case-folded) weights of the whole strings
first, then tertiary (case) weights. -/
def localeOrd (s t : String) : Ordering :=
  match lexNat (s.data.map primChar) (t.data.map primChar) with
  | .eq => lexNat (s.data.map caseWeight) (t.data.map caseWeight)
  | o => o

/-- Comparator predicate `s.localeCompare(t) <= 0` as a Bool, the order
in which JavaScript's `sort((a, b) => a[0].localeCompare(b[0]))` leaves
its result. -/
def localeLe (s t : String) : Bool :=
  match localeOrd s t with
  | .gt => false
  | _ => true

/-- Byte/code-point comparison `s <= t`, the ordering the specification
asserts for the sort ("byte/lexicographic"). -/
def byteLe (s t : String) : Bool :=
  match lexNat (s.data.map Char.toNat) (t.data.map Char.toNat) with
  | .gt => false
  | _ => true

/-- JavaScript `Map.set` on an association list: update in place if the
key is present (keeping its position), otherwise append. -/
def mset (m : List (String × String)) (k v : String) : List (String × String) :=
  match m with
  | [] => [(k, v)]
  | (k1, v1) :: rest => if k1 = k then (k, v) :: rest else (k1, v1) :: mset rest k v

/-- Folding `Map.set` over a list of additions: the
`for (const [path, hash] of subFiles) files.set(path, hash)` loop. -/
def msetAll (m : List (String × String)) : List (String × String) → List (String × String)
  | [] => m
  | (k, v) :: rest => msetAll (mset m k v) rest

mutual

/-- Embedding of `getDirectoryFiles(dirPath, basePath)` from
`src/lib/hash.ts`. On a regular file or an unreadable directory,
`readdir` throws and the surrounding `catch` returns the (empty) map.
On a directory it folds the entries into the `files` map: a directory
entry merges the recursive result via repeated `Map.set`, a file entry
sets its relative path to the hex digest of its content hash. -/
def getDirectoryFiles (h : String → Nat) (node : FsNode) (base : String) :
    List (String × String) :=
  match node with
  | .file _ => []
  | .unreadableDir => []
  | .dir es => processEntries h [] es base

/-- The `for (const entry of entries)` loop body of
`getDirectoryFiles`, with `files` as its accumulator. -/
def processEntries (h : String → Nat) (files : List (String × String))
    (es : FsEntries) (base : String) : List (String × String) :=
  match es with
  | .nil => files
  | .cons name child rest =>
    match child with
    | .file c => processEntries h (mset files (relPath base name) (toHex (h c))) rest base
    | .dir sub => processEntries h (msetAll files (getDirectoryFiles h (.dir sub) (relPath base name))) rest base
    | .unreadableDir => processEntries h (msetAll files (getDirectoryFiles h .unreadableDir (relPath base name))) rest base

end

mutual

/-- Specification-friendly restatement of the directory walk with plain
list concatenation instead of `Map.set`; proved equal to
`getDirectoryFiles` on well-formed trees (where no path collision can
occur, so `Map.set` never overwrites). -/
def listFiles (h : String → Nat) (node : FsNode) (base : String) :
    List (String × String) :=
  match node with
  | .file _ => []
  | .unreadableDir => []
  | .dir es => entriesFiles h es base

/-- Concatenation form of the entry loop. -/
def entriesFiles (h : String → Nat) (es : FsEntries) (base : String) :
    List (String × String) :=
  match es with
  | .nil => []
  | .cons name child rest => entryContrib h name child base ++ entriesFiles h rest base

/-- What a single directory entry contributes to the collected file
map: a file entry yields its own (relative path, digest) pair, a
directory entry yields the recursive walk rooted at its relative
path. -/
def entryContrib (h : String → Nat) (name : String) (child : FsNode) (base : String) :
    List (String × String) :=
  match child with
  | .file c => [(relPath base name, toHex (h c))]
  | .dir sub => listFiles h (.dir sub) (relPath base name)
  | .unreadableDir => listFiles h .unreadableDir (relPath base name)

end

/-- JavaScript `Array.prototype.join(sep)` on a list of strings, in a
form the kernel evaluates. -/
def joinSep (sep : String) : List String → String
  | [] => ""
  | [s] => s
  | s :: t :: rest => s ++ sep ++ joinSep sep (t :: rest)

/-- Pair ordering actually used by `hashDirectory`:
`(a, b) => a[0].localeCompare(b[0])`, read as `compare <= 0`, lifted to
the (path, digest) pairs for the stable sort. -/
def PairLocaleLe (a b : String × String) : Prop := localeLe a.1 b.1 = true

instance : DecidableRel PairLocaleLe := fun a b => decEq (localeLe a.1 b.1) true

/-- Pair ordering the specification asserts (byte/lexicographic on the
path). -/
def PairByteLe (a b : String × String) : Prop := byteLe a.1 b.1 = true

instance : DecidableRel PairByteLe := fun a b => decEq (byteLe a.1 b.1) true

/-- Embedding of `hashDirectory(dirPath)` from `src/lib/hash.ts`. The
root is `none` when the path does not exist. `h` abstracts `Bun.hash`.
Zero collected files yield the sentinel `"empty"`; otherwise the
(path, digest) pairs are sorted with the `localeCompare` comparator,
joined as `path:hash` with `|` separators, and the digest of that
combined string is returned. -/
def hashDirectory (h : String → Nat) (root : Option FsNode) : String :=
  let files := match root with
    | none => []
    | some node => getDirectoryFiles h node ""
  if files.length = 0 then "empty"
  else
    let sortedEntries := List.insertionSort PairLocaleLe files
    let combined := joinSep "|" (sortedEntries.map (fun p => p.1 ++ ":" ++ p.2))
    toHex (h combined)

/-- The fingerprint computation as the specification words it: identical
to `hashDirectory` except that the pairs are sorted by the
byte/lexicographic path order instead of `localeCompare`. -/
def hashDirectorySpecSort (h : String → Nat) (root : Option FsNode) : String :=
  let files := match root with
    | none => []
    | some node => getDirectoryFiles h node ""
  if files.length = 0 then "empty"
  else
    let sortedEntries := List.insertionSort PairByteLe files
    let combined := joinSep "|" (sortedEntries.map (fun p => p.1 ++ ":" ++ p.2))
    toHex (h combined)

/-- Embedding of `directoryExists(dirPath)`: `stat` succeeds and reports
a directory. An unreadable directory still stats as a directory; a
missing path throws and the `catch` returns false. -/
def directoryExists (root : Option FsNode) : Bool :=
  match root with
  | some (.dir _) => true
  | some .unreadableDir => true
  | some (.file _) => false
  | none => false

/-- Embedding of `compareDirectories(source, target)` from
`src/lib/hash.ts`. -/
def compareDirectories (h : String → Nat) (source target : Option FsNode) : String :=
  if directoryExists target = false then "target missing"
  else if hashDirectory h source = hashDirectory h target then "synced"
  else "not synced"

/-- Source record (current schema from `src/types.ts` variants keyed by
`name`): kind discriminator, optional original URL (remote) or absolute
path (local), and the unique store name. -/
inductive SourceKind where
  | remote
  | local
deriving DecidableEq, Repr

/-- A registered Source. -/
structure Source where
  kind : SourceKind
  url : Option String := none
  path : Option String := none
  name : String
deriving DecidableEq, Repr

/-- A registered Target. -/
structure Target where
  name : String
  path : String
deriving DecidableEq, Repr

/-- The persisted Config: ordered Sources and Targets. -/
structure Config where
  sources : List Source
  targets : List Target
deriving DecidableEq, Repr

/-- The `DEFAULT_CONFIG` constant from `src/lib/config.ts`. -/
def DEFAULT_CONFIG : Config := { sources := [], targets := [] }

/-- A Source record in the LEGACY persisted schema handled by the
migration branch of the `name`-keyed `readConfig`: old registry files
carried a compound `namespace` field (held in `ns` here) instead of the
flat `name`. A parsed legacy entry may carry either field, both or
neither — the migration condition in the source is
`source.namespace && !source.name`. -/
structure LegacySource where
  kind : SourceKind
  url : Option String := none
  path : Option String := none
  name : Option String := none
  ns : Option String := none
deriving DecidableEq, Repr

/-- A parsed registry file in the legacy schema. -/
structure LegacyConfig where
  sources : List LegacySource
  targets : List Target
deriving DecidableEq, Repr

/-- Bytes of a file on disk, as far as the config layer can observe
them: the JSON serialization of a current-schema `Config` (which
`configFile.json()` parses back to that config), the serialization of a
legacy-schema config (valid JSON whose sources may carry the old
`namespace` field — `readConfig` migrates these in place), or any other
content (`junk`), on which JSON parsing/shape-validation fails. -/
inductive RawFile where
  | junk (s : String)
  | conf (c : Config)
  | legacy (c : LegacyConfig)
deriving DecidableEq, Repr

/-- Does this file content hold a legacy-schema registry? -/
def isLegacyFile : Option RawFile → Bool
  | some (.legacy _) => true
  | _ => false

/-- Observable disk state for the config layer: file contents by
absolute path, and the set of directories that exist. -/
structure Disk where
  files : List (String × RawFile)
  dirs : List String
deriving DecidableEq, Repr

/-- Look up a file's bytes. -/
def readDisk (d : Disk) (p : String) : Option RawFile :=
  (d.files.find? (fun e => e.1 = p)).map (fun e => e.2)

/-- Association-list file update, keeping position on overwrite. -/
def msetFile : List (String × RawFile) → String → RawFile → List (String × RawFile)
  | [], k, v => [(k, v)]
  | (k1, v1) :: rest, k, v =>
    if k1 = k then (k, v) :: rest else (k1, v1) :: msetFile rest k v

/-- Overwrite (or create) the file at `p`. -/
def writeDisk (d : Disk) (p : String) (v : RawFile) : Disk :=
  { d with files := msetFile d.files p v }

/-- Idempotent `mkdir` (the `recursive: true` flag makes an existing
directory a no-op; intermediate components are not tracked). -/
def mkdirDisk (d : Disk) (p : String) : Disk :=
  if d.dirs.contains p then d else { d with dirs := p :: d.dirs }

/-- Path constant `SKILLS_ROOT = join(homedir(), ".skills")`. -/
def SKILLS_ROOT (home : String) : String := home ++ "/.skills"

/-- Path constant `SKILLS_STORE = join(SKILLS_ROOT, "store")`. -/
def SKILLS_STORE (home : String) : String := home ++ "/.skills/store"

/-- Path constant `CONFIG_PATH = join(SKILLS_ROOT, "config.json")`. -/
def CONFIG_PATH (home : String) : String := home ++ "/.skills/config.json"

/-- The three paths the config layer may touch. -/
def registryPaths (home : String) : List String :=
  [SKILLS_ROOT home, SKILLS_STORE home, CONFIG_PATH home]

/-- Embedding of `ensureDirectories()`. -/
def ensureDirectories (home : String) (d : Disk) : Disk :=
  mkdirDisk (mkdirDisk d (SKILLS_ROOT home)) (SKILLS_STORE home)

/-- Embedding of `writeConfig(config)`. -/
def writeConfig (home : String) (c : Config) (d : Disk) : Disk :=
  writeDisk (ensureDirectories home d) (CONFIG_PATH home) (.conf c)

/-- Path `p` is the directory `t` itself or lies strictly inside it. -/
def underPath (t p : String) : Bool :=
  p = t || (t ++ "/").data.isPrefixOf p.data

/-- Accumulator loop of `splitSegs`. -/
def splitSegsAux : List Char → List Char → List String
  | [], cur => [String.mk cur.reverse]
  | c :: rest, cur =>
    if c = '/' then String.mk cur.reverse :: splitSegsAux rest []
    else splitSegsAux rest (c :: cur)

/-- Model of `s.split("/")`. -/
def splitSegs (s : String) : List String := splitSegsAux s.data []

/-- The `parts[parts.length - 1]` selection on `s.split("/")`. -/
def lastSeg (s : String) : String := (splitSegs s).getLastD ""

/-- The `s.split("/")[0]` selection. -/
def firstSeg (s : String) : String := (splitSegs s).headD ""

/-- Model of `Bun.file(p).exists()`: a regular file sits at exactly `p`
(directories are not regular files in this model). -/
def fileExists (d : Disk) (p : String) : Bool := (readDisk d p).isSome

/-- Relocate one path from under `old` to the corresponding path under
`new` (identity outside the `old` subtree): the effect of
`rename(old, new)` on a single path. -/
def rebasePath (old new p : String) : String :=
  if underPath old p then String.mk (new.data ++ p.data.drop old.data.length) else p

/-- The `rename(oldPath, newPath)` of `migrateSkillFolder`: moves the
whole subtree, files and directories alike. -/
def renameSubtree (old new : String) (d : Disk) : Disk :=
  { files := d.files.map (fun e => (rebasePath old new e.1, e.2)),
    dirs := d.dirs.map (rebasePath old new) }

/-- Does the directory at `p` still contain any file or directory? -/
def dirHasEntries (d : Disk) (p : String) : Bool :=
  d.files.any (fun e => underPath p e.1 && e.1 ≠ p) ||
    d.dirs.any (fun q => underPath p q && q ≠ p)

/-- The `rm(parentDir, { recursive: false })` of `migrateSkillFolder`:
removes the directory only when it exists and is empty; any error
(missing path, directory not empty) is thrown and swallowed by the
surrounding `catch`. -/
def removeDirIfEmpty (p : String) (d : Disk) : Disk :=
  if d.dirs.contains p && !dirHasEntries d p then
    { d with dirs := d.dirs.filter (fun q => q ≠ p) }
  else d

/-- Embedding of `migrateSkillFolder(oldNamespace, newName)` from the
`name`-keyed config module: if the old nested store folder exists
(witnessed by its `SKILL.md`, or by a file at the old path itself — the
`Bun.file(oldPath).exists()` disjunct) and the new flat path is not
already taken, move the folder and then try to remove the now-empty old
parent directory. All failure paths are swallowed by the enclosing
`catch`; the rename itself is modelled as succeeding. -/
def migrateSkillFolder (home oldNs newName : String) (d : Disk) : Disk :=
  let oldPath := SKILLS_STORE home ++ "/" ++ oldNs
  let newPath := SKILLS_STORE home ++ "/" ++ newName
  if fileExists d (oldPath ++ "/SKILL.md") || fileExists d oldPath then
    if fileExists d newPath then d
    else
      removeDirIfEmpty (SKILLS_STORE home ++ "/" ++ firstSeg oldNs)
        (renameSubtree oldPath newPath d)
  else d

/-- The migration condition `source.namespace && !source.name`
(JavaScript truthiness: a missing or empty string is falsy). -/
def legacyNeedsMigration (s : LegacySource) : Bool :=
  s.ns.getD "" ≠ "" && s.name.getD "" = ""

/-- The `as Config` view of a legacy source that needed no migration: a
source lacking both fields keeps an undefined name, modelled as `""`;
a legacy `namespace` retained alongside a `name` is dropped here (the
TypeScript object keeps the stray property but never consults it). -/
def legacyToSource (s : LegacySource) : Source :=
  { kind := s.kind, url := s.url, path := s.path, name := s.name.getD "" }

/-- Migration loop of `readConfig`: walk the parsed sources in order; an
entry with a `namespace` and no `name` takes the last path segment of
the namespace as its flat name, has its store folder migrated on disk,
and raises the `needsMigration` flag. Returns the rewritten sources,
the flag, and the disk after the folder moves. -/
def migrateSources (home : String) : List LegacySource → Disk → List Source × Bool × Disk
  | [], d => ([], false, d)
  | s :: rest, d =>
    if legacyNeedsMigration s then
      let oldNs := s.ns.getD ""
      let newName := lastSeg oldNs
      let d1 := migrateSkillFolder home oldNs newName d
      let r := migrateSources home rest d1
      ({ kind := s.kind, url := s.url, path := s.path, name := newName } :: r.1, true, r.2.2)
    else
      let r := migrateSources home rest d
      (legacyToSource s :: r.1, r.2.1, r.2.2)

/-- Embedding of `readConfig()` (the `name`-keyed config module with
the legacy migration): ensure the directories; create the file with the
default config if absent; parse it — a current-schema file is returned
as is, a legacy-schema file is migrated in place (folder moves, then a
single rewrite of the config if anything migrated), and a file that
fails to parse (`catch`) silently resets to the default rather than
raising. -/
def readConfig (home : String) (d : Disk) : Config × Disk :=
  let d := ensureDirectories home d
  match readDisk d (CONFIG_PATH home) with
  | none => (DEFAULT_CONFIG, writeConfig home DEFAULT_CONFIG d)
  | some (.junk _) => (DEFAULT_CONFIG, writeConfig home DEFAULT_CONFIG d)
  | some (.conf c) => (c, d)
  | some (.legacy lc) =>
    let m := migrateSources home lc.sources d
    let cfg : Config := { sources := m.1, targets := lc.targets }
    if m.2.1 then (cfg, writeConfig home cfg m.2.2) else (cfg, m.2.2)

/-- Embedding of `addSource(source)` (the `name`-keyed variant): fail
without persisting if a source with the same name exists, otherwise
append and persist. The returned disk is the state after the call. -/
def addSource (home : String) (s : Source) (d : Disk) : Except String Unit × Disk :=
  let rc := readConfig home d
  let config := rc.1
  let d := rc.2
  match config.sources.find? (fun e => e.name = s.name) with
  | some _ => (.error ("Skill with name \"" ++ s.name ++ "\" already exists"), d)
  | none => (.ok (), writeConfig home { config with sources := config.sources ++ [s] } d)

/-- The `findIndex` + `splice(index, 1)` of `removeTarget`, as
first-match removal. -/
def spliceTarget (nm : String) : List Target → Option (Target × List Target)
  | [] => none
  | t :: rest =>
    if t.name = nm then some (t, rest)
    else (spliceTarget nm rest).map (fun r => (r.1, t :: r.2))

/-- Embedding of `removeTarget(name)`: `null` when no target matches,
otherwise the spliced-out record, with the remainder persisted. -/
def removeTarget (home : String) (nm : String) (d : Disk) : Option Target × Disk :=
  let rc := readConfig home d
  let config := rc.1
  let d := rc.2
  match spliceTarget nm config.targets with
  | none => (none, d)
  | some (t, rest) => (some t, writeConfig home { config with targets := rest } d)

/-- Embedding of the `targetRemove(name)` command: throws when
`removeTarget` returns null, otherwise only reports; it performs no
filesystem operation of its own. -/
def targetRemove (home : String) (nm : String) (d : Disk) : Except String (Target × Disk) :=
  match removeTarget home nm d with
  | (none, _) => .error ("Target not found: " ++ nm)
  | (some t, d1) => .ok (t, d1)

/-- Atoms of the concrete regular expressions in `parseGitUrl`'s
matchers: a literal, an optional non-capturing literal (`(?:...)?`), a
literal alternation (`(?:tree|blob)`), a captured one-or-more character
class run (greedy `([...]+)`/`(.+)` or lazy `(.+?)`), and the `$`
anchor. Every capture group in the source patterns is such a run. -/
inductive Atom where
  | lit (s : List Char)
  | optLit (s : List Char)
  | altLit (alts : List (List Char))
  | capPlus (p : Char → Bool) (greedy : Bool)
  | endAnchor

/-- Candidate match lengths for a one-or-more run whose maximal extent
is `maxLen`: longest first when greedy, shortest first when lazy,
mirroring the regex engine's backtracking preference order. -/
def candidateLens (maxLen : Nat) (greedy : Bool) : List Nat :=
  let l := (List.range maxLen).map (fun k => k + 1)
  if greedy then l.reverse else l

/-- Backtracking matcher: does the atom sequence match a prefix of `s`,
and with which captures? Preference order follows the regex engine
(greedy prefers longer runs, alternation and the optional literal try
the written branch first). -/
def matchAtoms : List Atom → List Char → Option (List (List Char))
  | [], _ => some []
  | .lit l :: rest, s =>
    if l.isPrefixOf s then matchAtoms rest (s.drop l.length) else none
  | .optLit l :: rest, s =>
    (if l.isPrefixOf s then matchAtoms rest (s.drop l.length) else none).orElse
      (fun _ => matchAtoms rest s)
  | .altLit alts :: rest, s =>
    alts.findSome? (fun l => if l.isPrefixOf s then matchAtoms rest (s.drop l.length) else none)
  | .capPlus p greedy :: rest, s =>
    let maxLen := (s.takeWhile p).length
    (candidateLens maxLen greedy).findSome?
      (fun n => (matchAtoms rest (s.drop n)).map (fun caps => s.take n :: caps))
  | .endAnchor :: rest, s =>
    if s.isEmpty then matchAtoms rest s else none

/-- Leftmost unanchored search, as `String.prototype.match` performs:
try each start position left to right. -/
def searchAtoms (atoms : List Atom) : List Char → Option (List (List Char))
  | [] => matchAtoms atoms []
  | c :: rest => (matchAtoms atoms (c :: rest)).orElse (fun _ => searchAtoms atoms rest)

/-- Run a pattern against a string, returning captures as strings. -/
def search (atoms : List Atom) (s : String) : Option (List String) :=
  (searchAtoms atoms s.data).map (fun caps => caps.map (fun l => String.mk l))

/-- Character class `[^\/]`. -/
def noSlash (c : Char) : Bool := c ≠ '/'

/-- JavaScript `\s` restricted to ASCII whitespace. -/
def isJsSpace (c : Char) : Bool :=
  c = ' ' || c = '\t' || c = '\n' || c = '\r' || c.toNat = 11 || c.toNat = 12

/-- Character class `[^\/\.\s]`. -/
def noSlashDotSpace (c : Char) : Bool := c ≠ '/' && c ≠ '.' && !isJsSpace c

/-- Character class `[^:]`. -/
def noColon (c : Char) : Bool := c ≠ ':'

/-- The `.` metacharacter (anything but a line terminator). -/
def anyDot (c : Char) : Bool := c ≠ '\n' && c ≠ '\r'

/-- Pattern `github\.com\/([^\/]+)\/([^\/]+)\/(?:tree|blob)\/([^\/]+)\/(.+)`. -/
def githubSubdirPattern : List Atom :=
  [.lit "github.com/".data, .capPlus noSlash true, .lit "/".data, .capPlus noSlash true,
   .lit "/".data, .altLit ["tree".data, "blob".data], .lit "/".data, .capPlus noSlash true,
   .lit "/".data, .capPlus anyDot true]

/-- Pattern `github\.com\/([^\/]+)\/([^\/\.\s]+)`. -/
def githubHttpsPattern : List Atom :=
  [.lit "github.com/".data, .capPlus noSlash true, .lit "/".data, .capPlus noSlashDotSpace true]

/-- Pattern `git@github\.com:([^\/]+)\/(.+?)(?:\.git)?$`. -/
def githubSshPattern : List Atom :=
  [.lit "git@github.com:".data, .capPlus noSlash true, .lit "/".data, .capPlus anyDot false,
   .optLit ".git".data, .endAnchor]

/-- Pattern for GitLab subdirectory URLs: `gitlab.com`, owner and repo
segments, the GitLab dash-tree marker (slash, dash, slash, `tree`,
slash), a branch segment, and the subdirectory remainder. -/
def gitlabSubdirPattern : List Atom :=
  [.lit "gitlab.com/".data, .capPlus noSlash true, .lit "/".data, .capPlus noSlash true,
   .lit "/-/tree/".data, .capPlus noSlash true, .lit "/".data, .capPlus anyDot true]

/-- Pattern `gitlab\.com\/([^\/]+)\/([^\/\.\s]+)`. -/
def gitlabHttpsPattern : List Atom :=
  [.lit "gitlab.com/".data, .capPlus noSlash true, .lit "/".data, .capPlus noSlashDotSpace true]

/-- Pattern `git@gitlab\.com:([^\/]+)\/(.+?)(?:\.git)?$`. -/
def gitlabSshPattern : List Atom :=
  [.lit "git@gitlab.com:".data, .capPlus noSlash true, .lit "/".data, .capPlus anyDot false,
   .optLit ".git".data, .endAnchor]

/-- Pattern `bitbucket\.org\/([^\/]+)\/([^\/]+)\/src\/([^\/]+)\/(.+)`. -/
def bitbucketSubdirPattern : List Atom :=
  [.lit "bitbucket.org/".data, .capPlus noSlash true, .lit "/".data, .capPlus noSlash true,
   .lit "/src/".data, .capPlus noSlash true, .lit "/".data, .capPlus anyDot true]

/-- Pattern `bitbucket\.org\/([^\/]+)\/([^\/\.\s]+)`. -/
def bitbucketHttpsPattern : List Atom :=
  [.lit "bitbucket.org/".data, .capPlus noSlash true, .lit "/".data, .capPlus noSlashDotSpace true]

/-- Pattern `git@bitbucket\.org:([^\/]+)\/(.+?)(?:\.git)?$`. -/
def bitbucketSshPattern : List Atom :=
  [.lit "git@bitbucket.org:".data, .capPlus noSlash true, .lit "/".data, .capPlus anyDot false,
   .optLit ".git".data, .endAnchor]

/-- Pattern `git@([^:]+):([^\/]+)\/(.+?)(?:\.git)?$`. -/
def genericSshPattern : List Atom :=
  [.lit "git@".data, .capPlus noColon true, .lit ":".data, .capPlus noSlash true,
   .lit "/".data, .capPlus anyDot false, .optLit ".git".data, .endAnchor]

/-- Pattern `https?:\/\/([^\/]+)\/([^\/]+)\/([^\/\.\s]+)`. -/
def genericHttpsPattern : List Atom :=
  [.lit "http".data, .optLit "s".data, .lit "://".data, .capPlus noSlash true,
   .lit "/".data, .capPlus noSlash true, .lit "/".data, .capPlus noSlashDotSpace true]

/-- Suffix test on strings via their character lists (the semantics of
`String.endsWith`, in a form the kernel evaluates). -/
def endsWithLit (s t : String) : Bool := t.data.isSuffixOf s.data

/-- Drop the last `n` characters of a string. -/
def dropRightStr (s : String) (n : Nat) : String :=
  String.mk (s.data.take (s.data.length - n))

/-- The `repo.replace(/\.git$/, "")` normalization. -/
def stripDotGit (s : String) : String :=
  if endsWithLit s ".git" then dropRightStr s 4 else s

/-- The `subdir.replace(/\/$/, "")` normalization. -/
def stripTrailingSlash (s : String) : String :=
  if endsWithLit s "/" then dropRightStr s 1 else s

/-- The `ParsedGitUrl` record of `src/lib/paths.ts`. -/
structure ParsedGitUrl where
  host : String
  owner : String
  repo : String
  branch : Option String := none
  subdir : Option String := none
  cloneUrl : String
deriving DecidableEq, Repr

/-- Embedding of `parseGitHubUrl`. -/
def parseGitHubUrl (url : String) : Option ParsedGitUrl :=
  match search githubSubdirPattern url with
  | some [owner, repo, branch, subdir] =>
    some { host := "github.com", owner := owner, repo := stripDotGit repo,
           branch := some branch, subdir := some (stripTrailingSlash subdir),
           cloneUrl := "https://github.com/" ++ owner ++ "/" ++ stripDotGit repo ++ ".git" }
  | _ =>
    match search githubHttpsPattern url with
    | some [owner, repo] =>
      some { host := "github.com", owner := owner, repo := stripDotGit repo,
             cloneUrl := "https://github.com/" ++ owner ++ "/" ++ stripDotGit repo ++ ".git" }
    | _ =>
      match search githubSshPattern url with
      | some [owner, repo] =>
        some { host := "github.com", owner := owner, repo := stripDotGit repo,
               cloneUrl := "git@github.com:" ++ owner ++ "/" ++ stripDotGit repo ++ ".git" }
      | _ => none

/-- Embedding of `parseGitLabUrl`. -/
def parseGitLabUrl (url : String) : Option ParsedGitUrl :=
  match search gitlabSubdirPattern url with
  | some [owner, repo, branch, subdir] =>
    some { host := "gitlab.com", owner := owner, repo := stripDotGit repo,
           branch := some branch, subdir := some (stripTrailingSlash subdir),
           cloneUrl := "https://gitlab.com/" ++ owner ++ "/" ++ stripDotGit repo ++ ".git" }
  | _ =>
    match search gitlabHttpsPattern url with
    | some [owner, repo] =>
      some { host := "gitlab.com", owner := owner, repo := stripDotGit repo,
             cloneUrl := "https://gitlab.com/" ++ owner ++ "/" ++ stripDotGit repo ++ ".git" }
    | _ =>
      match search gitlabSshPattern url with
      | some [owner, repo] =>
        some { host := "gitlab.com", owner := owner, repo := stripDotGit repo,
               cloneUrl := "git@gitlab.com:" ++ owner ++ "/" ++ stripDotGit repo ++ ".git" }
      | _ => none

/-- Embedding of `parseBitbucketUrl`. -/
def parseBitbucketUrl (url : String) : Option ParsedGitUrl :=
  match search bitbucketSubdirPattern url with
  | some [owner, repo, branch, subdir] =>
    some { host := "bitbucket.org", owner := owner, repo := stripDotGit repo,
           branch := some branch, subdir := some (stripTrailingSlash subdir),
           cloneUrl := "https://bitbucket.org/" ++ owner ++ "/" ++ stripDotGit repo ++ ".git" }
  | _ =>
    match search bitbucketHttpsPattern url with
    | some [owner, repo] =>
      some { host := "bitbucket.org", owner := owner, repo := stripDotGit repo,
             cloneUrl := "https://bitbucket.org/" ++ owner ++ "/" ++ stripDotGit repo ++ ".git" }
    | _ =>
      match search bitbucketSshPattern url with
      | some [owner, repo] =>
        some { host := "bitbucket.org", owner := owner, repo := stripDotGit repo,
               cloneUrl := "git@bitbucket.org:" ++ owner ++ "/" ++ stripDotGit repo ++ ".git" }
      | _ => none

/-- Embedding of `parseGenericGitUrl`. -/
def parseGenericGitUrl (url : String) : Option ParsedGitUrl :=
  match search genericSshPattern url with
  | some [host, owner, repo] =>
    some { host := host, owner := owner, repo := stripDotGit repo,
           cloneUrl := if endsWithLit url ".git" then url else url ++ ".git" }
  | _ =>
    match search genericHttpsPattern url with
    | some [host, owner, repo] =>
      some { host := host, owner := owner, repo := stripDotGit repo,
             cloneUrl := if endsWithLit url ".git" then url else url ++ ".git" }
    | _ => none

/-- Embedding of `parseGitUrl`: the fixed matcher priority chain. -/
def parseGitUrl (url : String) : Option ParsedGitUrl :=
  (parseGitHubUrl url).orElse (fun _ =>
    (parseGitLabUrl url).orElse (fun _ =>
      (parseBitbucketUrl url).orElse (fun _ =>
        parseGenericGitUrl url)))

/-- Existence flags for the two paths a remote clone can create:
`targetPath` (the store subdirectory being built) and the temporary
clone path `targetPath + "_temp"` used for sparse checkouts. -/
structure CloneFs where
  target : Bool
  temp : Bool
deriving DecidableEq, Repr

/-- Outcomes of the external git/filesystem steps inside the clone
try-block. Each step is `none` (success) or `some cause` (the
subprocess or copy failed with that cause: non-zero exit, missing
branch, network failure, ...). The `LeavesDir` flags record whether a
failed step left its partially created directory behind. -/
structure GitEnv where
  tempClone : Option String := none
  tempCloneLeavesDir : Bool := false
  sparseInit : Option String := none
  sparseSet : Option String := none
  checkout : Option String := none
  cp : Option String := none
  cpLeavesDir : Bool := false
  fullClone : Option String := none
  fullCloneLeavesDir : Bool := false
deriving DecidableEq, Repr

/-- The try-block of `addRemoteSource` (and, identically, of
`updateRemoteSource`): with a subdir, a blob-filtered no-checkout
shallow clone into the temp path, sparse-checkout init/set, checkout,
copy of the subdir into the target path, and removal of the temp path;
without a subdir, a direct shallow clone into the target path followed
by `.git` removal (not visible in this path-existence model). An error
carries the cause and the partial filesystem state at the throw. -/
def cloneBody (parsed : ParsedGitUrl) (env : GitEnv) (fs : CloneFs) :
    Except (String × CloneFs) CloneFs :=
  match parsed.subdir with
  | some _ =>
    match env.tempClone with
    | some cause => .error (cause, { fs with temp := env.tempCloneLeavesDir })
    | none =>
      let fs1 : CloneFs := { fs with temp := true }
      match env.sparseInit with
      | some cause => .error (cause, fs1)
      | none =>
        match env.sparseSet with
        | some cause => .error (cause, fs1)
        | none =>
          match env.checkout with
          | some cause => .error (cause, fs1)
          | none =>
            match env.cp with
            | some cause => .error (cause, { fs1 with target := env.cpLeavesDir })
            | none => .ok { target := true, temp := false }
  | none =>
    match env.fullClone with
    | some cause => .error (cause, { fs with target := env.fullCloneLeavesDir })
    | none => .ok { fs with target := true }

/-- Embedding of `addRemoteSource` after URL parsing and name
resolution: the `directoryExists(targetPath)` collision check, the
clone try-block, and the catch handler, which removes BOTH the target
path and the temp path before rethrowing
`Failed to clone repository: cause`. -/
def addRemoteSourceCore (parsed : ParsedGitUrl) (env : GitEnv) (fs : CloneFs) :
    Except String Unit × CloneFs :=
  if fs.target then
    (.error "Skill already exists. Remove it first or use --name to specify a different name.", fs)
  else
    match cloneBody parsed env fs with
    | .ok fs1 => (.ok (), fs1)
    | .error (cause, fsPartial) =>
      (.error ("Failed to clone repository: " ++ cause),
       { fsPartial with target := false, temp := false })

/-- Embedding of `updateRemoteSource` after URL parsing: remove the
existing store subdirectory, re-run the clone try-block, and in the
catch remove ONLY the temp path before rethrowing
`Failed to clone: cause`. -/
def updateRemoteSourceCore (parsed : ParsedGitUrl) (env : GitEnv) (fs : CloneFs) :
    Except String Unit × CloneFs :=
  let fs0 : CloneFs := { fs with target := false }
  match cloneBody parsed env fs0 with
  | .ok fs1 => (.ok (), fs1)
  | .error (cause, fsPartial) =>
    (.error ("Failed to clone: " ++ cause), { fsPartial with temp := false })

/-- Filesystem slice relevant to `syncToTarget`: the tree at
`SKILLS_STORE` and the tree at `target.path` (each `none` when the path
does not exist). -/
structure SyncFs where
  store : Option FsNode
  tgt : Option FsNode
deriving DecidableEq, Repr

/-- Embedding of `syncToTarget(target)` from the sync command module:
`mkdir(target.path, recursive)`; then the store check
`directoryExists(SKILLS_STORE)` — existence only — with the no-op
notice and early return when it fails; otherwise remove every immediate
child of `target.path` (errors swallowed) and recursively copy the
store into it. Returns the final filesystem and the per-target console
line. -/
def syncToTarget (name : String) (fs : SyncFs) : Except String (SyncFs × String) :=
  match fs.tgt with
  | some (.file _) => .error "mkdir failed: target path exists and is not a directory"
  | _ =>
    let fs1 : SyncFs := match fs.tgt with
      | none => { fs with tgt := some (.dir .nil) }
      | _ => fs
    if directoryExists fs1.store = false then
      .ok (fs1, "  " ++ name ++ ": Store is empty, nothing to sync")
    else
      let fs2 : SyncFs := match fs1.tgt with
        | some (.dir _) => { fs1 with tgt := some (.dir .nil) }
        | _ => fs1
      match fs2.store with
      | some (.dir es) => .ok ({ fs2 with tgt := some (.dir es) }, "  " ++ name ++ ": Synced")
      | _ => .error "cp failed: store is not readable"

/-- Outcome of one batch item: `none` on success, the caught error
message on failure. -/
def toOutcome (r : Except String Unit) : Option String :=
  match r with
  | .ok _ => none
  | .error e => some e

/-- The `for (const target of targets) try ... catch ...` loop of
`sync()`: every item is attempted, a failure is recorded against the
item's name, and the loop continues. `syncOne` abstracts the inner
`syncToTarget` call (which may throw). -/
def syncLoop (syncOne : Target → Except String Unit) : List Target → List (String × Option String)
  | [] => []
  | t :: rest => (t.name, toOutcome (syncOne t)) :: syncLoop syncOne rest

/-- Embedding of the batch `sync()` command: early return when no
targets are registered or the store root does not exist, otherwise the
per-target loop. The result is the list of per-item outcomes; the
function itself never fails. -/
def sync (syncOne : Target → Except String Unit) (storeExists : Bool)
    (targets : List Target) : List (String × Option String) :=
  if targets.isEmpty then []
  else if storeExists = false then []
  else syncLoop syncOne targets

/-- The `for (const source of sources) try ... catch ...` loop of
`update()`: remote sources are refreshed through `fr` (abstracting
`updateRemoteSource(name, url)`), local ones through `fl`
(`updateLocalSource(name, path)`); the non-null assertions `url!` and
`path!` surface a missing field as an in-loop failure, which the catch
records. -/
def updateLoop (fr : String → String → Except String Unit)
    (fl : String → String → Except String Unit) : List Source → List (String × Option String)
  | [] => []
  | s :: rest =>
    (s.name, toOutcome (match s.kind with
      | .remote => fr s.name (s.url.getD "")
      | .local => fl s.name (s.path.getD ""))) :: updateLoop fr fl rest

/-- Embedding of the batch `update()` command: early return when no
sources are registered, otherwise the per-source loop. -/
def update (fr : String → String → Except String Unit)
    (fl : String → String → Except String Unit) (sources : List Source) :
    List (String × Option String) :=
  if sources.isEmpty then []
  else updateLoop fr fl sources

mutual

/-- One tree is a re-enumeration of another: same files and contents
everywhere, with the entries of every directory listed in a possibly
different order. This is exactly the degree of freedom the filesystem
has in `readdir` enumeration order. -/
inductive Reorder : FsNode → FsNode → Prop where
  | file (c : String) : Reorder (.file c) (.file c)
  | unreadable : Reorder .unreadableDir .unreadableDir
  | dir {es es' : FsEntries} : ReorderEntries es es' → Reorder (.dir es) (.dir es')

/-- Permutation-with-reordered-children on entry lists, generated the
same way `List.Perm` is. -/
inductive ReorderEntries : FsEntries → FsEntries → Prop where
  | nil : ReorderEntries .nil .nil
  | cons (n : String) {a b : FsNode} {es es' : FsEntries} :
      Reorder a b → ReorderEntries es es' → ReorderEntries (.cons n a es) (.cons n b es')
  | swap (n1 n2 : String) (a b : FsNode) (es : FsEntries) :
      ReorderEntries (.cons n1 a (.cons n2 b es)) (.cons n2 b (.cons n1 a es))
  | trans {es1 es2 es3 : FsEntries} :
      ReorderEntries es1 es2 → ReorderEntries es2 es3 → ReorderEntries es1 es3

end

/-- Path `p` is `name` itself or `name` followed by a slash and a
remainder: the shape of every relative path contributed by the entry
called `name`. -/
def EntryKey (name p : String) : Prop := p = name ∨ ∃ s, p = name ++ "/" ++ s

/-- The sixteen characters `toHex` can emit. -/
def hexChars : List Char := "0123456789abcdef".data

/-- Concrete injective-on-ASCII hash standing in for `Bun.hash` in the
closed counterexample evaluations: base-256 value of the byte string. -/
def hDemoC3 (s : String) : Nat := s.data.foldl (fun a c => a * 256 + c.toNat) 0

/-- Two-file directory whose names order differently under byte order
("B" before "a") and under `localeCompare` ("a" before "B"). -/
def demoDirBA : FsNode := .dir (.cons "B" (.file "x") (.cons "a" (.file "y") .nil))

/-- The same directory enumerated in the opposite order. -/
def demoDirAB : FsNode := .dir (.cons "a" (.file "y") (.cons "B" (.file "x") .nil))

/-! ### Order-theoretic facts about the modelled `localeCompare` -/

theorem lexNat_eq_iff : ∀ a b : List Nat, lexNat a b = .eq ↔ a = b := by
  intro a
  induction a with
  | nil => intro b; cases b <;> simp [lexNat]
  | cons x xs ih =>
    intro b
    cases b with
    | nil => simp [lexNat]
    | cons y ys =>
      rcases Nat.lt_trichotomy x y with h | h | h
      · simp only [lexNat, if_pos h, List.cons.injEq]
        constructor
        · intro hc; exact absurd hc (by decide)
        · rintro ⟨rfl, -⟩; exact absurd h (lt_irrefl x)
      · subst h
        simp [lexNat, ih ys]
      · have h1 : ¬ x < y := by omega
        simp only [lexNat, if_neg h1, if_pos h, List.cons.injEq]
        constructor
        · intro hc; exact absurd hc (by decide)
        · rintro ⟨rfl, -⟩; exact absurd h (lt_irrefl x)

theorem lexNat_swap : ∀ a b : List Nat, lexNat b a = (lexNat a b).swap := by
  intro a
  induction a with
  | nil => intro b; cases b <;> simp [lexNat, Ordering.swap]
  | cons x xs ih =>
    intro b
    cases b with
    | nil => simp [lexNat, Ordering.swap]
    | cons y ys =>
      rcases Nat.lt_trichotomy x y with h | h | h
      · have h1 : ¬ y < x := by omega
        simp [lexNat, h, h1, Ordering.swap]
      · subst h
        simp [lexNat, ih ys]
      · have h1 : ¬ x < y := by omega
        simp [lexNat, h, h1, Ordering.swap]

theorem lexNat_lt_trans :
    ∀ a b c : List Nat, lexNat a b = .lt → lexNat b c = .lt → lexNat a c = .lt := by
  intro a
  induction a with
  | nil =>
    intro b c hab hbc
    cases b with
    | nil => exact hbc
    | cons y ys =>
      cases c with
      | nil => simp [lexNat] at hbc
      | cons z zs => simp [lexNat]
  | cons x xs ih =>
    intro b c hab hbc
    cases b with
    | nil => simp [lexNat] at hab
    | cons y ys =>
      cases c with
      | nil => simp [lexNat] at hbc
      | cons z zs =>
        simp only [lexNat] at hab hbc ⊢
        rcases Nat.lt_trichotomy x y with h1 | h1 | h1
        · rcases Nat.lt_trichotomy y z with h2 | h2 | h2
          · have : x < z := by omega
            simp [this]
          · subst h2
            simp [h1]
          · rw [if_neg (by omega), if_pos h2] at hbc
            exact absurd hbc (by decide)
        · subst h1
          rcases Nat.lt_trichotomy x z with h2 | h2 | h2
          · simp [h2]
          · subst h2
            rw [if_neg (lt_irrefl x), if_neg (lt_irrefl x)] at hab hbc ⊢
            exact ih ys zs hab hbc
          · rw [if_neg (by omega), if_pos h2] at hbc
            exact absurd hbc (by decide)
        · rw [if_neg (by omega), if_pos h1] at hab
          exact absurd hab (by decide)

theorem lexNat_not_gt_cases {a b : List Nat} (h : lexNat a b ≠ .gt) :
    lexNat a b = .lt ∨ a = b := by
  rcases he : lexNat a b with - | - | -
  · left; rfl
  · right; exact (lexNat_eq_iff a b).mp he
  · exact absurd he h

theorem char_key_inj (c d : Char)
    (hp : primChar c = primChar d) (hw : caseWeight c = caseWeight d) : c = d := by
  have hnat : c.toNat = d.toNat := by
    unfold primChar at hp
    unfold caseWeight at hw
    split_ifs at hp hw <;> omega
  exact Char.eq_of_val_eq (UInt32.ext hnat)

theorem map_key_inj :
    ∀ l1 l2 : List Char, l1.map primChar = l2.map primChar →
      l1.map caseWeight = l2.map caseWeight → l1 = l2 := by
  intro l1
  induction l1 with
  | nil => intro l2 hp _; cases l2 <;> simp_all
  | cons c cs ih =>
    intro l2 hp hw
    cases l2 with
    | nil => simp at hp
    | cons d ds =>
      simp only [List.map_cons, List.cons.injEq] at hp hw
      exact List.cons_eq_cons.mpr
        ⟨char_key_inj c d hp.1 hw.1, ih ds hp.2 hw.2⟩

theorem localeOrd_eq_iff (s t : String) : localeOrd s t = .eq ↔ s = t := by
  constructor
  · intro h
    unfold localeOrd at h
    cases hp : lexNat (s.data.map primChar) (t.data.map primChar) with
    | lt => rw [hp] at h; simp at h
    | gt => rw [hp] at h; simp at h
    | eq =>
      rw [hp] at h
      have hpe := (lexNat_eq_iff _ _).mp hp
      have hwe := (lexNat_eq_iff _ _).mp h
      exact String.ext (map_key_inj _ _ hpe hwe)
  · rintro rfl
    unfold localeOrd
    rw [(lexNat_eq_iff _ _).mpr rfl, (lexNat_eq_iff _ _).mpr rfl]

theorem localeOrd_swap (s t : String) : localeOrd t s = (localeOrd s t).swap := by
  unfold localeOrd
  rw [lexNat_swap (s.data.map primChar) (t.data.map primChar),
    lexNat_swap (s.data.map caseWeight) (t.data.map caseWeight)]
  cases lexNat (s.data.map primChar) (t.data.map primChar) <;> simp [Ordering.swap]

theorem localeLe_iff (s t : String) :
    localeLe s t = true ↔ localeOrd s t ≠ .gt := by
  unfold localeLe
  cases localeOrd s t <;> simp

theorem localeLe_total (s t : String) : localeLe s t = true ∨ localeLe t s = true := by
  rw [localeLe_iff, localeLe_iff]
  cases he : localeOrd s t with
  | lt => left; simp
  | eq => left; simp
  | gt =>
    right
    rw [localeOrd_swap s t, he]
    simp [Ordering.swap]

theorem localeLe_antisymm {s t : String}
    (h1 : localeLe s t = true) (h2 : localeLe t s = true) : s = t := by
  rw [localeLe_iff] at h1 h2
  rw [localeOrd_swap] at h2
  apply (localeOrd_eq_iff s t).mp
  cases he : localeOrd s t with
  | lt => rw [he] at h2; simp [Ordering.swap] at h2
  | eq => rfl
  | gt => rw [he] at h1; simp at h1

theorem localeOrd_lt_iff (s t : String) :
    localeOrd s t = .lt ↔
      (lexNat (s.data.map primChar) (t.data.map primChar) = .lt ∨
        (s.data.map primChar = t.data.map primChar ∧
          lexNat (s.data.map caseWeight) (t.data.map caseWeight) = .lt)) := by
  unfold localeOrd
  cases hp : lexNat (s.data.map primChar) (t.data.map primChar) with
  | lt => simp
  | eq => simp [(lexNat_eq_iff _ _).mp hp]
  | gt =>
    constructor
    · intro hc; simp at hc
    · rintro (hc | ⟨he, -⟩)
      · exact absurd hc (by simp)
      · rw [(lexNat_eq_iff _ _).mpr he] at hp
        exact absurd hp (by simp)

theorem localeOrd_lt_trans {s t u : String}
    (h1 : localeOrd s t = .lt) (h2 : localeOrd t u = .lt) : localeOrd s u = .lt := by
  rw [localeOrd_lt_iff] at h1 h2 ⊢
  rcases h1 with h1 | ⟨h1e, h1w⟩
  · rcases h2 with h2 | ⟨h2e, h2w⟩
    · exact Or.inl (lexNat_lt_trans _ _ _ h1 h2)
    · rw [h2e] at h1
      exact Or.inl h1
  · rcases h2 with h2 | ⟨h2e, h2w⟩
    · rw [h1e]
      exact Or.inl h2
    · exact Or.inr ⟨h1e.trans h2e, lexNat_lt_trans _ _ _ h1w h2w⟩

theorem localeLe_trans {s t u : String}
    (h1 : localeLe s t = true) (h2 : localeLe t u = true) : localeLe s u = true := by
  rw [localeLe_iff] at h1 h2 ⊢
  intro hgoal
  cases hlt1 : localeOrd s t with
  | gt => exact h1 hlt1
  | eq =>
    have hst := (localeOrd_eq_iff s t).mp hlt1
    subst hst
    exact h2 hgoal
  | lt =>
    cases hlt2 : localeOrd t u with
    | gt => exact h2 hlt2
    | eq =>
      have htu := (localeOrd_eq_iff t u).mp hlt2
      subst htu
      rw [hlt1] at hgoal
      simp at hgoal
    | lt =>
      have h3 := localeOrd_lt_trans hlt1 hlt2
      rw [h3] at hgoal
      simp at hgoal

theorem pairLocaleLe_total (a b : String × String) : PairLocaleLe a b ∨ PairLocaleLe b a := by
  unfold PairLocaleLe
  exact localeLe_total a.1 b.1

theorem pairLocaleLe_trans {a b c : String × String}
    (h1 : PairLocaleLe a b) (h2 : PairLocaleLe b c) : PairLocaleLe a c :=
  localeLe_trans h1 h2

/-! ### Relative-path shape lemmas -/

theorem slash_split_inj :
    ∀ l1 l2 r1 r2 : List Char, '/' ∉ l1 → '/' ∉ l2 →
      l1 ++ '/' :: r1 = l2 ++ '/' :: r2 → l1 = l2 ∧ r1 = r2 := by
  intro l1
  induction l1 with
  | nil =>
    intro l2 r1 r2 h1 h2 heq
    cases l2 with
    | nil => simpa using heq
    | cons x xs =>
      simp only [List.nil_append, List.cons_append, List.cons.injEq] at heq
      exact absurd (heq.1 ▸ List.mem_cons_self x xs) h2
  | cons x xs ih =>
    intro l2 r1 r2 h1 h2 heq
    cases l2 with
    | nil =>
      simp only [List.nil_append, List.cons_append, List.cons.injEq] at heq
      exact absurd (heq.1 ▸ List.mem_cons_self x xs) h1
    | cons y ys =>
      simp only [List.cons_append, List.cons.injEq] at heq
      obtain ⟨rfl, heq2⟩ := heq
      have hx1 : '/' ∉ xs := fun hm => h1 (List.mem_cons_of_mem _ hm)
      have hy2 : '/' ∉ ys := fun hm => h2 (List.mem_cons_of_mem _ hm)
      obtain ⟨he, hr⟩ := ih ys r1 r2 hx1 hy2 heq2
      exact ⟨by rw [he], hr⟩

theorem okName_facts {n : String} (h : okName n = true) : n ≠ "" ∧ '/' ∉ n.data := by
  unfold okName at h
  simp only [Bool.and_eq_true, decide_eq_true_eq, Bool.not_eq_true'] at h
  refine ⟨h.1, fun hm => ?_⟩
  have : n.data.contains '/' = true := List.elem_eq_true_of_mem hm
  rw [this] at h
  exact absurd h.2 (by simp)

theorem concat_slash_data (n s : String) :
    (n ++ "/" ++ s).data = n.data ++ '/' :: s.data := by
  simp [String.data_append]

theorem string_ne_empty_iff (s : String) : s ≠ "" ↔ s.data ≠ [] := by
  constructor
  · intro h hc
    exact h (String.ext hc)
  · intro h hc
    rw [hc] at h
    exact h rfl

theorem relPath_inj {b x y : String} (h : relPath b x = relPath b y) : x = y := by
  unfold relPath at h
  by_cases hb : b = ""
  · simpa [hb] using h
  · rw [if_neg hb, if_neg hb] at h
    have hd := congrArg String.data h
    simp only [String.data_append, List.append_assoc] at hd
    exact String.ext (List.append_cancel_left (List.append_cancel_left hd))

theorem relPath_assoc (b : String) {n : String} (s : String) (hn : n ≠ "") :
    relPath (relPath b n) s = relPath b (n ++ "/" ++ s) := by
  unfold relPath
  by_cases hb : b = ""
  · subst hb
    have hns : n ++ "/" ++ s ≠ "" := by
      rw [string_ne_empty_iff, concat_slash_data]
      simp
    rw [if_pos rfl, if_neg hn, if_pos rfl]
  · have hbn : b ++ "/" ++ n ≠ "" := by
      rw [string_ne_empty_iff, concat_slash_data]
      simp
    rw [if_neg hb, if_neg hbn, if_neg hb]
    apply String.ext
    simp [String.data_append]

theorem entryKey_disjoint {n1 n2 p : String}
    (h1 : okName n1 = true) (h2 : okName n2 = true) (hne : n1 ≠ n2)
    (k1 : EntryKey n1 p) (k2 : EntryKey n2 p) : False := by
  obtain ⟨hne1, hns1⟩ := okName_facts h1
  obtain ⟨hne2, hns2⟩ := okName_facts h2
  rcases k1 with rfl | ⟨s1, rfl⟩
  · rcases k2 with heq | ⟨s2, heq⟩
    · exact hne heq
    · apply hns1
      rw [heq, concat_slash_data]
      exact List.mem_append_right _ (List.mem_cons_self _ _)
  · rcases k2 with heq | ⟨s2, heq⟩
    · apply hns2
      rw [← heq, concat_slash_data]
      exact List.mem_append_right _ (List.mem_cons_self _ _)
    · have hd := congrArg String.data heq
      rw [concat_slash_data, concat_slash_data] at hd
      obtain ⟨he, -⟩ := slash_split_inj _ _ _ _ hns1 hns2 hd
      exact hne (String.ext he)

/-! ### Structure of the collected file maps -/

theorem contains_iff (l : List String) (a : String) : l.contains a = true ↔ a ∈ l :=
  List.elem_iff

theorem namesNodup_iff : ∀ l : List String, namesNodup l = true ↔ l.Nodup := by
  intro l
  induction l with
  | nil => simp [namesNodup]
  | cons n rest ih =>
    unfold namesNodup
    rw [List.nodup_cons, Bool.and_eq_true, Bool.not_eq_true', ← ih]
    constructor
    · rintro ⟨hc, hr⟩
      refine ⟨fun hm => ?_, hr⟩
      rw [(contains_iff rest n).mpr hm] at hc
      cases hc
    · rintro ⟨hm, hr⟩
      refine ⟨?_, hr⟩
      cases hc : rest.contains n
      · rfl
      · exact absurd ((contains_iff rest n).mp hc) hm

theorem wfEntries_cons {name : String} {child : FsNode} {rest : FsEntries}
    (h : wfEntries (.cons name child rest) = true) :
    okName name = true ∧ wfNode child = true ∧ wfEntries rest = true := by
  unfold wfEntries at h
  simp only [Bool.and_eq_true] at h
  exact ⟨h.1.1, h.1.2, h.2⟩

theorem wfNode_dir {es : FsEntries} (h : wfNode (.dir es) = true) :
    namesNodup (entryNames es) = true ∧ wfEntries es = true := by
  unfold wfNode at h
  simpa [Bool.and_eq_true] using h

theorem wf_names : ∀ es : FsEntries, wfEntries es = true →
    ∀ n ∈ entryNames es, okName n = true
  | .nil => by intro _ n hn; simp [entryNames] at hn
  | .cons name child rest => by
    intro hwf n hn
    obtain ⟨hok, -, hwr⟩ := wfEntries_cons hwf
    unfold entryNames at hn
    rw [List.mem_cons] at hn
    rcases hn with rfl | hn
    · exact hok
    · exact wf_names rest hwr n hn

theorem ks_entries (h : String → Nat) :
    ∀ (es : FsEntries) (b : String), wfEntries es = true →
      ∀ p v, (p, v) ∈ entriesFiles h es b →
        ∃ n q, n ∈ entryNames es ∧ EntryKey n q ∧ p = relPath b q
  | .nil, b, _, p, v, hm => by simp [entriesFiles] at hm
  | .cons name child rest, b, hwf, p, v, hm => by
    obtain ⟨hok, hwc, hwr⟩ := wfEntries_cons hwf
    obtain ⟨hne, -⟩ := okName_facts hok
    unfold entriesFiles at hm
    rw [List.mem_append] at hm
    rcases hm with hm | hm
    · cases child with
      | file c =>
        simp only [entryContrib, List.mem_singleton, Prod.mk.injEq] at hm
        exact ⟨name, name, List.mem_cons_self _ _, Or.inl rfl, hm.1⟩
      | dir sub =>
        have hred : entryContrib h name (.dir sub) b = entriesFiles h sub (relPath b name) := by
          simp [entryContrib, listFiles]
        rw [hred] at hm
        obtain ⟨-, hws⟩ := wfNode_dir hwc
        obtain ⟨n1, q1, -, -, hp1⟩ := ks_entries h sub (relPath b name) hws p v hm
        refine ⟨name, name ++ "/" ++ q1, List.mem_cons_self _ _, Or.inr ⟨q1, rfl⟩, ?_⟩
        rw [hp1, relPath_assoc b q1 hne]
      | unreadableDir =>
        simp [entryContrib, listFiles] at hm
    · obtain ⟨n1, q1, hn1, hk1, hp1⟩ := ks_entries h rest b hwr p v hm
      exact ⟨n1, q1, List.mem_cons_of_mem _ hn1, hk1, hp1⟩

theorem contrib_shape (h : String → Nat) {name : String} {child : FsNode} (b : String)
    (hok : okName name = true) (hwc : wfNode child = true) :
    ∀ p v, (p, v) ∈ entryContrib h name child b → ∃ q, EntryKey name q ∧ p = relPath b q := by
  intro p v hm
  obtain ⟨hne, -⟩ := okName_facts hok
  cases child with
  | file c =>
    simp only [entryContrib, List.mem_singleton, Prod.mk.injEq] at hm
    exact ⟨name, Or.inl rfl, hm.1⟩
  | dir sub =>
    have hred : entryContrib h name (.dir sub) b = entriesFiles h sub (relPath b name) := by
      simp [entryContrib, listFiles]
    rw [hred] at hm
    obtain ⟨-, hws⟩ := wfNode_dir hwc
    obtain ⟨n1, q1, -, -, hp1⟩ := ks_entries h sub (relPath b name) hws p v hm
    exact ⟨name ++ "/" ++ q1, Or.inr ⟨q1, rfl⟩, by rw [hp1, relPath_assoc b q1 hne]⟩
  | unreadableDir =>
    simp [entryContrib, listFiles] at hm

theorem mem_keys_shape {l : List (String × String)} {a : String}
    (hm : a ∈ l.map Prod.fst) : ∃ v, (a, v) ∈ l := by
  rw [List.mem_map] at hm
  obtain ⟨pv, hpv, rfl⟩ := hm
  exact ⟨pv.2, hpv⟩

theorem contrib_rest_disjoint (h : String → Nat) {name : String} {child : FsNode}
    {rest : FsEntries} (b : String) (hok : okName name = true) (hwc : wfNode child = true)
    (hwr : wfEntries rest = true) (hnotin : name ∉ entryNames rest) :
    ∀ a ∈ (entryContrib h name child b).map Prod.fst,
      a ∉ (entriesFiles h rest b).map Prod.fst := by
  intro a ha hb
  obtain ⟨v1, hm1⟩ := mem_keys_shape ha
  obtain ⟨v2, hm2⟩ := mem_keys_shape hb
  obtain ⟨q1, hk1, hp1⟩ := contrib_shape h b hok hwc a v1 hm1
  obtain ⟨n2, q2, hn2, hk2, hp2⟩ := ks_entries h rest b hwr a v2 hm2
  have hq : q1 = q2 := relPath_inj (hp1 ▸ hp2)
  subst hq
  have hne : name ≠ n2 := fun hc => hnotin (hc ▸ hn2)
  exact entryKey_disjoint hok (wf_names rest hwr n2 hn2) hne hk1 hk2

theorem nodup_entries (h : String → Nat) :
    ∀ (es : FsEntries) (b : String), wfEntries es = true →
      namesNodup (entryNames es) = true → ((entriesFiles h es b).map Prod.fst).Nodup
  | .nil, b, _, _ => by simp [entriesFiles]
  | .cons name child rest, b, hwf, hnn => by
    obtain ⟨hok, hwc, hwr⟩ := wfEntries_cons hwf
    have hnn2 : namesNodup (entryNames (.cons name child rest)) = true := hnn
    unfold entryNames namesNodup at hnn2
    simp only [Bool.and_eq_true, Bool.not_eq_true'] at hnn2
    have hnotin : name ∉ entryNames rest := fun hm => by
      rw [(contains_iff _ _).mpr hm] at hnn2
      exact absurd hnn2.1 (by simp)
    have hcontrib : ((entryContrib h name child b).map Prod.fst).Nodup := by
      cases child with
      | file c => simp [entryContrib]
      | dir sub =>
        have hred : entryContrib h name (.dir sub) b = entriesFiles h sub (relPath b name) := by
          simp [entryContrib, listFiles]
        rw [hred]
        obtain ⟨hnns, hws⟩ := wfNode_dir hwc
        exact nodup_entries h sub (relPath b name) hws hnns
      | unreadableDir => simp [entryContrib, listFiles]
    have hrest : ((entriesFiles h rest b).map Prod.fst).Nodup :=
      nodup_entries h rest b hwr hnn2.2
    have hstep : entriesFiles h (.cons name child rest) b =
        entryContrib h name child b ++ entriesFiles h rest b := by
      simp [entriesFiles]
    rw [hstep, List.map_append]
    exact List.Nodup.append hcontrib hrest
      (contrib_rest_disjoint h b hok hwc hwr hnotin)

theorem mset_append (m : List (String × String)) (k v : String)
    (hk : k ∉ m.map Prod.fst) : mset m k v = m ++ [(k, v)] := by
  induction m with
  | nil => simp [mset]
  | cons e rest ih =>
    obtain ⟨k1, v1⟩ := e
    simp only [List.map_cons, List.mem_cons] at hk
    push_neg at hk
    unfold mset
    rw [if_neg (fun hc => hk.1 hc.symm)]
    rw [ih hk.2]
    simp

theorem msetAll_append (l : List (String × String)) :
    ∀ m : List (String × String), (l.map Prod.fst).Nodup →
      (∀ a ∈ l.map Prod.fst, a ∉ m.map Prod.fst) → msetAll m l = m ++ l := by
  induction l with
  | nil => intro m _ _; simp [msetAll]
  | cons e rest ih =>
    intro m hnd hdisj
    obtain ⟨k, v⟩ := e
    simp only [List.map_cons] at hnd hdisj
    rw [List.nodup_cons] at hnd
    unfold msetAll
    rw [mset_append m k v (hdisj k (List.mem_cons_self _ _))]
    rw [ih (m ++ [(k, v)]) hnd.2 ?_]
    · simp
    · intro a ha
      rw [List.map_append, List.mem_append]
      rintro (hc | hc)
      · exact hdisj a (List.mem_cons_of_mem _ ha) hc
      · simp only [List.map_cons, List.map_nil, List.mem_singleton] at hc
        subst hc
        exact hnd.1 ha

theorem procEq (h : String → Nat) :
    ∀ (es : FsEntries) (b : String) (acc : List (String × String)),
      wfEntries es = true → namesNodup (entryNames es) = true →
      (∀ a ∈ acc.map Prod.fst, a ∉ (entriesFiles h es b).map Prod.fst) →
      processEntries h acc es b = acc ++ entriesFiles h es b
  | .nil, b, acc, _, _, _ => by simp [processEntries, entriesFiles]
  | .cons name child rest, b, acc, hwf, hnn, hdisj => by
    obtain ⟨hok, hwc, hwr⟩ := wfEntries_cons hwf
    have hnn2 : namesNodup (entryNames (.cons name child rest)) = true := hnn
    unfold entryNames namesNodup at hnn2
    simp only [Bool.and_eq_true, Bool.not_eq_true'] at hnn2
    have hnotin : name ∉ entryNames rest := fun hm => by
      rw [(contains_iff _ _).mpr hm] at hnn2
      exact absurd hnn2.1 (by simp)
    have hstep : entriesFiles h (.cons name child rest) b =
        entryContrib h name child b ++ entriesFiles h rest b := by
      simp [entriesFiles]
    have hdisj2 : ∀ a ∈ acc.map Prod.fst,
        a ∉ (entryContrib h name child b ++ entriesFiles h rest b).map Prod.fst := by
      intro a ha
      rw [← hstep]
      exact hdisj a ha
    have hcd := contrib_rest_disjoint h b hok hwc hwr hnotin
    have haccx : ∀ a ∈ (acc ++ entryContrib h name child b).map Prod.fst,
        a ∉ (entriesFiles h rest b).map Prod.fst := by
      intro a ha
      rw [List.map_append, List.mem_append] at ha
      rcases ha with ha | ha
      · intro hc
        apply hdisj2 a ha
        rw [List.map_append, List.mem_append]
        exact Or.inr hc
      · exact hcd a ha
    cases child with
    | file c =>
      have hred : entryContrib h name (.file c) b = [(relPath b name, toHex (h c))] := by
        simp [entryContrib]
      have hk : relPath b name ∉ acc.map Prod.fst := by
        intro hc
        apply hdisj2 _ hc
        rw [hred]
        simp
      have hproc : processEntries h acc (.cons name (.file c) rest) b =
          processEntries h (mset acc (relPath b name) (toHex (h c))) rest b := by
        simp [processEntries]
      rw [hproc, mset_append acc _ _ hk,
        procEq h rest b (acc ++ [(relPath b name, toHex (h c))]) hwr hnn2.2 (hred ▸ haccx),
        hstep, hred, List.append_assoc]
    | dir sub =>
      obtain ⟨hnns, hws⟩ := wfNode_dir hwc
      have hgd : getDirectoryFiles h (.dir sub) (relPath b name) =
          entriesFiles h sub (relPath b name) := by
        have h1 : getDirectoryFiles h (.dir sub) (relPath b name) =
            processEntries h [] sub (relPath b name) := by
          simp [getDirectoryFiles]
        rw [h1, procEq h sub (relPath b name) [] hws hnns (by simp)]
        simp
      have hred : entryContrib h name (.dir sub) b = entriesFiles h sub (relPath b name) := by
        simp [entryContrib, listFiles]
      have hcnd : ((entriesFiles h sub (relPath b name)).map Prod.fst).Nodup :=
        nodup_entries h sub (relPath b name) hws hnns
      have hcdisj : ∀ a ∈ (entriesFiles h sub (relPath b name)).map Prod.fst,
          a ∉ acc.map Prod.fst := by
        intro a ha hc
        apply hdisj2 a hc
        rw [List.map_append, List.mem_append]
        exact Or.inl (hred ▸ ha)
      have hproc : processEntries h acc (.cons name (.dir sub) rest) b =
          processEntries h (msetAll acc (getDirectoryFiles h (.dir sub) (relPath b name))) rest b := by
        simp [processEntries]
      rw [hproc, hgd, msetAll_append _ acc hcnd hcdisj,
        procEq h rest b (acc ++ entriesFiles h sub (relPath b name)) hwr hnn2.2 (hred ▸ haccx),
        hstep, hred, List.append_assoc]
    | unreadableDir =>
      have hred : entryContrib h name .unreadableDir b = [] := by
        simp [entryContrib, listFiles]
      have hgd : getDirectoryFiles h .unreadableDir (relPath b name) = [] := by
        simp [getDirectoryFiles]
      have hproc : processEntries h acc (.cons name .unreadableDir rest) b =
          processEntries h (msetAll acc (getDirectoryFiles h .unreadableDir (relPath b name))) rest b := by
        simp [processEntries]
      have hmsa : msetAll acc [] = acc := by simp [msetAll]
      rw [hproc, hgd, hmsa,
        procEq h rest b acc hwr hnn2.2 ?_, hstep, hred, List.nil_append]
      intro a ha
      have := hdisj2 a ha
      rw [hred] at this
      simpa using this

theorem getDirectoryFiles_eq_listFiles (h : String → Nat) (node : FsNode) (b : String)
    (hwf : wfNode node = true) : getDirectoryFiles h node b = listFiles h node b := by
  cases node with
  | file c => simp [getDirectoryFiles, listFiles]
  | unreadableDir => simp [getDirectoryFiles, listFiles]
  | dir es =>
    obtain ⟨hnn, hwe⟩ := wfNode_dir hwf
    have h1 : getDirectoryFiles h (.dir es) b = processEntries h [] es b := by
      simp [getDirectoryFiles]
    have h2 : listFiles h (.dir es) b = entriesFiles h es b := by
      simp [listFiles]
    rw [h1, h2, procEq h es b [] hwe hnn (by simp)]
    simp

theorem listFiles_keys_nodup (h : String → Nat) (node : FsNode) (b : String)
    (hwf : wfNode node = true) : ((listFiles h node b).map Prod.fst).Nodup := by
  cases node with
  | file c => simp [listFiles]
  | unreadableDir => simp [listFiles]
  | dir es =>
    obtain ⟨hnn, hwe⟩ := wfNode_dir hwf
    have h2 : listFiles h (.dir es) b = entriesFiles h es b := by
      simp [listFiles]
    rw [h2]
    exact nodup_entries h es b hwe hnn

/-! ### Enumeration-order invariance -/

theorem reorder_perm_entries {es es' : FsEntries} (he : ReorderEntries es es') :
    ∀ (h : String → Nat) (b : String), (entriesFiles h es b).Perm (entriesFiles h es' b) := by
  refine @ReorderEntries.rec
    (fun a c _ => ∀ (h : String → Nat) (name base : String),
      (entryContrib h name a base).Perm (entryContrib h name c base))
    (fun es1 es2 _ => ∀ (h : String → Nat) (b : String),
      (entriesFiles h es1 b).Perm (entriesFiles h es2 b))
    ?_ ?_ ?_ ?_ ?_ ?_ ?_ es es' he
  · intro c h name base
    exact .refl _
  · intro h name base
    exact .refl _
  · intro es1 es2 a ih h name base
    have hp := ih h (relPath base name)
    simpa [entryContrib, listFiles] using hp
  · intro h b
    exact .refl _
  · intro n a c es1 es2 ha hes ih1 ih2 h b
    have h1 := ih1 h n b
    have h2 := ih2 h b
    simpa [entriesFiles] using h1.append h2
  · intro n1 n2 a c es1 h b
    simp only [entriesFiles]
    rw [← List.append_assoc, ← List.append_assoc]
    exact List.Perm.append_right _ List.perm_append_comm
  · intro es1 es2 es3 h1 h2 ih1 ih2 h b
    exact (ih1 h b).trans (ih2 h b)

theorem reorder_perm_node {d d' : FsNode} (hr : Reorder d d') (h : String → Nat)
    (b : String) : (listFiles h d b).Perm (listFiles h d' b) := by
  cases hr with
  | file c => exact .refl _
  | unreadable => exact .refl _
  | dir he =>
    have hp := reorder_perm_entries he h b
    simpa [listFiles] using hp

theorem reorder_names : ∀ {es es' : FsEntries}, ReorderEntries es es' →
    (entryNames es).Perm (entryNames es') := by
  intro es es' he
  refine @ReorderEntries.rec
    (fun _ _ _ => True)
    (fun es1 es2 _ => (entryNames es1).Perm (entryNames es2))
    ?_ ?_ ?_ ?_ ?_ ?_ ?_ es es' he
  · intro c; trivial
  · trivial
  · intro es1 es2 a ih; trivial
  · exact .refl _
  · intro n a c es1 es2 ha hes ih1 ih2
    simpa [entryNames] using ih2.cons n
  · intro n1 n2 a c es1
    simp only [entryNames]
    exact List.Perm.swap n2 n1 (entryNames es1)
  · intro es1 es2 es3 h1 h2 ih1 ih2
    exact ih1.trans ih2

theorem reorder_wf_entries {es es' : FsEntries} (he : ReorderEntries es es')
    (hw : wfEntries es = true) : wfEntries es' = true := by
  refine @ReorderEntries.rec
    (fun a c _ => wfNode a = true → wfNode c = true)
    (fun es1 es2 _ => wfEntries es1 = true → wfEntries es2 = true)
    ?_ ?_ ?_ ?_ ?_ ?_ ?_ es es' he hw
  · intro c hx
    exact hx
  · intro hx
    exact hx
  · intro es1 es2 a ih hx
    obtain ⟨hnn, hwe⟩ := wfNode_dir hx
    have hn2 : namesNodup (entryNames es2) = true :=
      (namesNodup_iff _).mpr ((reorder_names a).nodup ((namesNodup_iff _).mp hnn))
    have hw2 := ih hwe
    unfold wfNode
    rw [hn2, hw2]
    rfl
  · intro hx
    exact hx
  · intro n a c es1 es2 ha hes ih1 ih2 hx
    obtain ⟨hok, hwc, hwr⟩ := wfEntries_cons hx
    unfold wfEntries
    rw [hok, ih1 hwc, ih2 hwr]
    rfl
  · intro n1 n2 a c es1 hx
    obtain ⟨hok1, hwc1, hw2⟩ := wfEntries_cons hx
    obtain ⟨hok2, hwc2, hwr⟩ := wfEntries_cons hw2
    unfold wfEntries
    rw [hok2, hwc2]
    unfold wfEntries
    rw [hok1, hwc1, hwr]
    rfl
  · intro es1 es2 es3 h1 h2 ih1 ih2 hx
    exact ih2 (ih1 hx)

theorem reorder_wf_node {d d' : FsNode} (hr : Reorder d d')
    (hw : wfNode d = true) : wfNode d' = true := by
  cases hr with
  | file c => exact hw
  | unreadable => exact hw
  | dir he =>
    obtain ⟨hnn, hwe⟩ := wfNode_dir hw
    have hn2 : namesNodup (entryNames _) = true :=
      (namesNodup_iff _).mpr ((reorder_names he).nodup ((namesNodup_iff _).mp hnn))
    have hw2 := reorder_wf_entries he hwe
    unfold wfNode
    rw [hn2, hw2]
    rfl

theorem sorted_perm_unique :
    ∀ {l1 l2 : List (String × String)}, l1.Perm l2 →
      l1.Sorted PairLocaleLe → l2.Sorted PairLocaleLe →
      (l1.map Prod.fst).Nodup → l1 = l2 := by
  intro l1
  induction l1 with
  | nil =>
    intro l2 hp _ _ _
    exact (hp.symm.eq_nil).symm
  | cons a t1 ih =>
    intro l2 hp hs1 hs2 hnd
    cases l2 with
    | nil => exact absurd hp.eq_nil (by simp)
    | cons c t2 =>
      by_cases hac : a = c
      · subst hac
        have htp := hp.cons_inv
        rw [ih htp hs1.of_cons hs2.of_cons (by simpa using hnd.of_cons)]
      · exfalso
        have hma : a ∈ c :: t2 := hp.subset (List.mem_cons_self _ _)
        have hmc : c ∈ a :: t1 := hp.symm.subset (List.mem_cons_self _ _)
        rw [List.mem_cons] at hma hmc
        rcases hma with hma | hma
        · exact hac hma
        rcases hmc with hmc | hmc
        · exact hac hmc.symm
        have h1 : PairLocaleLe a c := (List.sorted_cons.mp hs1).1 c hmc
        have h2 : PairLocaleLe c a := (List.sorted_cons.mp hs2).1 a hma
        have hkey : a.1 = c.1 := localeLe_antisymm h1 h2
        have : a.1 ∈ t1.map Prod.fst := by
          rw [hkey]
          exact List.mem_map_of_mem Prod.fst hmc
        rw [List.map_cons, List.nodup_cons] at hnd
        exact hnd.1 this

theorem sorted_eq_of_perm_nodup (f1 f2 : List (String × String)) (hp : f1.Perm f2)
    (hnd : (f1.map Prod.fst).Nodup) :
    List.insertionSort PairLocaleLe f1 = List.insertionSort PairLocaleLe f2 := by
  haveI : IsTotal (String × String) PairLocaleLe := ⟨pairLocaleLe_total⟩
  haveI : IsTrans (String × String) PairLocaleLe := ⟨fun _ _ _ => pairLocaleLe_trans⟩
  apply sorted_perm_unique
  · exact (List.perm_insertionSort _ f1).trans (hp.trans (List.perm_insertionSort _ f2).symm)
  · exact List.sorted_insertionSort _ f1
  · exact List.sorted_insertionSort _ f2
  · exact (((List.perm_insertionSort PairLocaleLe f1).map Prod.fst).symm).nodup hnd

theorem hashDirectory_some (h : String → Nat) (node : FsNode) :
    hashDirectory h (some node) =
      (if (getDirectoryFiles h node "").length = 0 then "empty"
       else toHex (h (joinSep "|" ((List.insertionSort PairLocaleLe
         (getDirectoryFiles h node "")).map (fun p => p.1 ++ ":" ++ p.2))))) := rfl

/-! ### Hex digest facts -/

theorem hexDigit_mem (k : Nat) (hk : k < 16) : hexDigit k ∈ hexChars := by
  interval_cases k <;> decide

theorem toHexAux_chars : ∀ (fuel n : Nat) (acc : List Char),
    (∀ c ∈ acc, c ∈ hexChars) → ∀ c ∈ toHexAux fuel n acc, c ∈ hexChars := by
  intro fuel
  induction fuel with
  | zero =>
    intro n acc hacc c hc
    unfold toHexAux at hc
    exact hacc c hc
  | succ f ih =>
    intro n acc hacc c hc
    unfold toHexAux at hc
    by_cases hn : n = 0
    · rw [if_pos hn] at hc
      exact hacc c hc
    · rw [if_neg hn] at hc
      refine ih (n / 16) _ ?_ c hc
      intro d hd
      rcases List.mem_cons.mp hd with rfl | hd
      · exact hexDigit_mem _ (Nat.mod_lt n (by omega))
      · exact hacc d hd

theorem toHex_ne_empty (n : Nat) : toHex n ≠ "empty" := by
  unfold toHex
  by_cases hn : n = 0
  · rw [if_pos hn]
    decide
  · rw [if_neg hn]
    intro hc
    have hdata : toHexAux n n [] = "empty".data := congrArg String.data hc
    have hm : 'm' ∈ toHexAux n n [] := by
      rw [hdata]
      decide
    have := toHexAux_chars n n [] (by simp) 'm' hm
    revert this
    decide

/-! ### Claim theorems: DirectoryHasher -/

/-- C3 (counterexample): the pairs are NOT sorted by a byte/lexicographic
path order. `hashDirectory` sorts with `localeCompare`, which puts
`"a"` before `"B"` while byte order puts `"B"` (0x42) before `"a"`
(0x61); on a directory holding files `B` and `a`, the combined string —
and hence the fingerprint, for the explicit injective demo hash — differs
from what the byte/lexicographic algorithm stated in the claim
produces. -/
theorem C3_counterexample :
    List.insertionSort PairLocaleLe [("B", "78"), ("a", "79")] = [("a", "79"), ("B", "78")] ∧
    byteLe "B" "a" = true ∧ localeLe "a" "B" = true ∧ localeLe "B" "a" = false ∧
    hashDirectory hDemoC3 (some demoDirBA) ≠ hashDirectorySpecSort hDemoC3 (some demoDirBA) := by
  decide

/-- C3 (amended): for every well-formed directory tree and every
re-enumeration of its entries (at every depth), `hashDirectory` yields
the same fingerprint: the sort comparator `localeCompare` is total,
transitive and antisymmetric (in the ASCII model), so the stable sort
produces the same sorted pair list from any enumeration order. The
ordering is locale collation, not the byte/lexicographic order the
claim stated. -/
theorem C3_fingerprint_enumeration_invariant (h : String → Nat) (d d' : FsNode)
    (hwf : wfNode d = true) (hr : Reorder d d') :
    hashDirectory h (some d) = hashDirectory h (some d') := by
  have hwf2 := reorder_wf_node hr hwf
  have hperm0 := reorder_perm_node hr h ""
  rw [hashDirectory_some, hashDirectory_some,
    getDirectoryFiles_eq_listFiles h d "" hwf, getDirectoryFiles_eq_listFiles h d' "" hwf2]
  have hnd := listFiles_keys_nodup h d "" hwf
  by_cases hlen : (listFiles h d "").length = 0
  · rw [if_pos hlen, if_pos (by rw [← hperm0.length_eq]; exact hlen)]
  · rw [if_neg hlen, if_neg (by rw [← hperm0.length_eq]; exact hlen)]
    rw [sorted_eq_of_perm_nodup _ _ hperm0 hnd]

/-- Witness for the amended C3 at a concrete two-file directory and its
reversed enumeration. -/
theorem C3_fingerprint_enumeration_invariant_witness :
    wfNode demoDirBA = true ∧
    hashDirectory hDemoC3 (some demoDirBA) = hashDirectory hDemoC3 (some demoDirAB) := by
  have hwf : wfNode demoDirBA = true := by decide
  have hr : Reorder demoDirBA demoDirAB :=
    .dir (.swap "B" "a" (.file "x") (.file "y") .nil)
  exact ⟨hwf, C3_fingerprint_enumeration_invariant hDemoC3 demoDirBA demoDirAB hwf hr⟩

/-- C4: `compareDirectories` returns `target missing` iff the target
does not exist (or is not a directory); `synced` iff it exists with
equal fingerprints (including the case where both sides are the
`"empty"` sentinel, which is just fingerprint equality); `not synced`
otherwise. -/
theorem C4_compare_trichotomy :
    ∀ (h : String → Nat) (src tgt : Option FsNode),
      (compareDirectories h src tgt = "target missing" ↔ directoryExists tgt = false) ∧
      (compareDirectories h src tgt = "synced" ↔
        directoryExists tgt = true ∧ hashDirectory h src = hashDirectory h tgt) ∧
      (compareDirectories h src tgt = "not synced" ↔
        directoryExists tgt = true ∧ hashDirectory h src ≠ hashDirectory h tgt) := by
  intro h src tgt
  unfold compareDirectories
  by_cases hd : directoryExists tgt = false
  · rw [if_pos hd]
    refine ⟨⟨fun _ => hd, fun _ => rfl⟩, ?_, ?_⟩
    · constructor
      · intro hx
        exact absurd hx (by decide)
      · rintro ⟨ht, -⟩
        rw [hd] at ht
        exact absurd ht (by decide)
    · constructor
      · intro hx
        exact absurd hx (by decide)
      · rintro ⟨ht, -⟩
        rw [hd] at ht
        exact absurd ht (by decide)
  · have ht : directoryExists tgt = true := by
      revert hd
      cases directoryExists tgt <;> simp
    rw [if_neg hd]
    by_cases he : hashDirectory h src = hashDirectory h tgt
    · rw [if_pos he]
      refine ⟨?_, ⟨fun _ => ⟨ht, he⟩, fun _ => rfl⟩, ?_⟩
      · constructor
        · intro hx
          exact absurd hx (by decide)
        · intro hf
          rw [hf] at ht
          exact absurd ht (by decide)
      · constructor
        · intro hx
          exact absurd hx (by decide)
        · rintro ⟨-, hne⟩
          exact absurd he hne
    · rw [if_neg he]
      refine ⟨?_, ?_, ⟨fun _ => ⟨ht, he⟩, fun _ => rfl⟩⟩
      · constructor
        · intro hx
          exact absurd hx (by decide)
        · intro hf
          rw [hf] at ht
          exact absurd ht (by decide)
      · constructor
        · intro hx
          exact absurd hx (by decide)
        · rintro ⟨-, heq⟩
          exact absurd heq he

/-- C9: the fingerprint is total and never raises. A missing path, a
regular file and an unreadable directory all contribute zero files (the
`readdir` failure is swallowed by the `catch`), so they fingerprint to
the `"empty"` sentinel; every other output is a hex rendering
`toHex m`, and no hex rendering equals `"empty"` (its `'m'` is not a hex
digit). -/
theorem C9_fingerprint_total_empty_sentinel :
    ∀ (h : String → Nat) (c : String) (n : Nat) (root : Option FsNode),
      hashDirectory h none = "empty" ∧
      hashDirectory h (some (.file c)) = "empty" ∧
      hashDirectory h (some .unreadableDir) = "empty" ∧
      toHex n ≠ "empty" ∧
      (hashDirectory h root = "empty" ∨ ∃ m, hashDirectory h root = toHex m) := by
  intro h c n root
  refine ⟨rfl, ?_, ?_, toHex_ne_empty n, ?_⟩
  · rw [hashDirectory_some]
    rw [if_pos (by simp [getDirectoryFiles])]
  · rw [hashDirectory_some]
    rw [if_pos (by simp [getDirectoryFiles])]
  · cases root with
    | none => exact Or.inl rfl
    | some node =>
      rw [hashDirectory_some]
      by_cases hlen : (getDirectoryFiles h node "").length = 0
      · rw [if_pos hlen]
        exact Or.inl rfl
      · rw [if_neg hlen]
        exact Or.inr ⟨_, rfl⟩

/-! ### ConfigStore lemmas -/

theorem readDisk_mkdir (d : Disk) (q p : String) :
    readDisk (mkdirDisk d q) p = readDisk d p := by
  unfold mkdirDisk
  split <;> rfl

theorem readDisk_ensure (home : String) (d : Disk) (p : String) :
    readDisk (ensureDirectories home d) p = readDisk d p := by
  unfold ensureDirectories
  rw [readDisk_mkdir, readDisk_mkdir]

theorem mkdir_dirs_iff (d : Disk) (q p : String) :
    p ∈ (mkdirDisk d q).dirs ↔ (p = q ∨ p ∈ d.dirs) := by
  unfold mkdirDisk
  by_cases hq : d.dirs.contains q = true
  · rw [if_pos hq]
    have hqm : q ∈ d.dirs := (contains_iff _ _).mp hq
    constructor
    · exact Or.inr
    · rintro (rfl | hp)
      · exact hqm
      · exact hp
  · rw [if_neg hq]
    simp

theorem find_msetFile_same (k : String) (v : RawFile) :
    ∀ fs : List (String × RawFile),
      (msetFile fs k v).find? (fun e => e.1 = k) = some (k, v) := by
  intro fs
  induction fs with
  | nil => simp [msetFile]
  | cons e rest ih =>
    obtain ⟨k1, v1⟩ := e
    unfold msetFile
    by_cases hk : k1 = k
    · rw [if_pos hk]
      simp
    · rw [if_neg hk]
      rw [List.find?_cons_of_neg _ (by simpa using hk)]
      exact ih

theorem find_msetFile_other (k p : String) (v : RawFile) (hne : p ≠ k) :
    ∀ fs : List (String × RawFile),
      (msetFile fs k v).find? (fun e => e.1 = p) = fs.find? (fun e => e.1 = p) := by
  intro fs
  induction fs with
  | nil =>
    show List.find? (fun e => e.1 = p) [(k, v)] = List.find? (fun e => e.1 = p) []
    rw [List.find?_cons_of_neg _ (by simpa using fun hc => hne hc.symm)]
  | cons e rest ih =>
    obtain ⟨k1, v1⟩ := e
    unfold msetFile
    by_cases hk : k1 = k
    · rw [if_pos hk]
      subst hk
      rw [List.find?_cons_of_neg _ (by simpa using fun hc => hne hc.symm),
        List.find?_cons_of_neg _ (by simpa using fun hc => hne hc.symm)]
    · rw [if_neg hk]
      by_cases hp : k1 = p
      · rw [List.find?_cons_of_pos _ (by simpa using hp),
          List.find?_cons_of_pos _ (by simpa using hp)]
      · rw [List.find?_cons_of_neg _ (by simpa using hp),
          List.find?_cons_of_neg _ (by simpa using hp)]
        exact ih

theorem readDisk_write_same (d : Disk) (p : String) (v : RawFile) :
    readDisk (writeDisk d p v) p = some v := by
  unfold readDisk writeDisk
  rw [find_msetFile_same]
  rfl

theorem readDisk_write_other (d : Disk) (q p : String) (v : RawFile) (hne : p ≠ q) :
    readDisk (writeDisk d q v) p = readDisk d p := by
  unfold readDisk writeDisk
  rw [find_msetFile_other q p v hne]

theorem writeDisk_dirs (d : Disk) (q : String) (v : RawFile) :
    (writeDisk d q v).dirs = d.dirs := rfl

theorem ensure_dirs_iff (home : String) (d : Disk) (p : String) :
    p ∈ (ensureDirectories home d).dirs ↔
      (p = SKILLS_STORE home ∨ p = SKILLS_ROOT home ∨ p ∈ d.dirs) := by
  unfold ensureDirectories
  rw [mkdir_dirs_iff, mkdir_dirs_iff]

theorem registry_not_mem {home p : String} (hp : p ∉ registryPaths home) :
    p ≠ SKILLS_ROOT home ∧ p ≠ SKILLS_STORE home ∧ p ≠ CONFIG_PATH home := by
  unfold registryPaths at hp
  simp only [List.mem_cons, List.mem_singleton, not_or] at hp
  exact ⟨hp.1, hp.2.1, by simpa using hp.2.2⟩

theorem writeConfig_frame (home : String) (c : Config) (d : Disk) (p : String)
    (hp : p ∉ registryPaths home) :
    readDisk (writeConfig home c d) p = readDisk d p ∧
      (p ∈ (writeConfig home c d).dirs ↔ p ∈ d.dirs) := by
  obtain ⟨h1, h2, h3⟩ := registry_not_mem hp
  unfold writeConfig
  constructor
  · rw [readDisk_write_other _ _ _ _ h3, readDisk_ensure]
  · rw [writeDisk_dirs, ensure_dirs_iff]
    constructor
    · rintro (hc | hc | hm)
      · exact absurd hc h2
      · exact absurd hc h1
      · exact hm
    · exact fun hm => Or.inr (Or.inr hm)

theorem readConfig_frame (home : String) (d : Disk) (p : String)
    (hp : p ∉ registryPaths home)
    (hleg : isLegacyFile (readDisk d (CONFIG_PATH home)) = false) :
    readDisk (readConfig home d).2 p = readDisk d p ∧
      (p ∈ (readConfig home d).2.dirs ↔ p ∈ d.dirs) := by
  obtain ⟨h1, h2, h3⟩ := registry_not_mem hp
  unfold readConfig
  dsimp only
  cases hf : readDisk (ensureDirectories home d) (CONFIG_PATH home) with
  | none =>
    dsimp only
    obtain ⟨hw1, hw2⟩ := writeConfig_frame home DEFAULT_CONFIG (ensureDirectories home d) p hp
    constructor
    · rw [hw1, readDisk_ensure]
    · rw [hw2, ensure_dirs_iff]
      constructor
      · rintro (hc | hc | hm)
        · exact absurd hc h2
        · exact absurd hc h1
        · exact hm
      · exact fun hm => Or.inr (Or.inr hm)
  | some raw =>
    cases raw with
    | junk s =>
      dsimp only
      obtain ⟨hw1, hw2⟩ := writeConfig_frame home DEFAULT_CONFIG (ensureDirectories home d) p hp
      constructor
      · rw [hw1, readDisk_ensure]
      · rw [hw2, ensure_dirs_iff]
        constructor
        · rintro (hc | hc | hm)
          · exact absurd hc h2
          · exact absurd hc h1
          · exact hm
        · exact fun hm => Or.inr (Or.inr hm)
    | conf c =>
      dsimp only
      constructor
      · rw [readDisk_ensure]
      · rw [ensure_dirs_iff]
        constructor
        · rintro (hc | hc | hm)
          · exact absurd hc h2
          · exact absurd hc h1
          · exact hm
        · exact fun hm => Or.inr (Or.inr hm)
    | legacy lc =>
      rw [readDisk_ensure] at hf
      rw [hf] at hleg
      simp [isLegacyFile] at hleg

theorem mkdir_of_mem {d : Disk} {q : String} (hq : q ∈ d.dirs) : mkdirDisk d q = d := by
  unfold mkdirDisk
  rw [if_pos ((contains_iff _ _).mpr hq)]

theorem ensure_writeConfig (home : String) (c : Config) (d : Disk) :
    ensureDirectories home (writeConfig home c d) = writeConfig home c d := by
  have hroot : SKILLS_ROOT home ∈ (writeConfig home c d).dirs := by
    unfold writeConfig
    rw [writeDisk_dirs, ensure_dirs_iff]
    exact Or.inr (Or.inl rfl)
  have hstore : SKILLS_STORE home ∈ (writeConfig home c d).dirs := by
    unfold writeConfig
    rw [writeDisk_dirs, ensure_dirs_iff]
    exact Or.inl rfl
  unfold ensureDirectories
  rw [mkdir_of_mem hroot, mkdir_of_mem hstore]

theorem readConfig_writeConfig (home : String) (c : Config) (d : Disk) :
    readConfig home (writeConfig home c d) = (c, writeConfig home c d) := by
  unfold readConfig
  rw [ensure_writeConfig]
  have hread : readDisk (writeConfig home c d) (CONFIG_PATH home) = some (.conf c) := by
    unfold writeConfig
    exact readDisk_write_same _ _ _
  dsimp only
  rw [hread]

theorem spliceTarget_spec {nm : String} :
    ∀ {l : List Target} {t : Target} {rest : List Target},
      spliceTarget nm l = some (t, rest) → t ∈ l ∧ t.name = nm := by
  intro l
  induction l with
  | nil => intro t rest hc; simp [spliceTarget] at hc
  | cons a as ih =>
    intro t rest hsp
    unfold spliceTarget at hsp
    by_cases ha : a.name = nm
    · rw [if_pos ha] at hsp
      obtain ⟨rfl, -⟩ : a = t ∧ as = rest := by
        simpa using hsp
      exact ⟨List.mem_cons_self _ _, ha⟩
    · rw [if_neg ha] at hsp
      cases hs2 : spliceTarget nm as with
      | none => rw [hs2] at hsp; simp at hsp
      | some pr =>
        rw [hs2] at hsp
        obtain ⟨t2, rest2⟩ := pr
        obtain ⟨h1, h2⟩ := ih hs2
        have hsome : (t2, a :: rest2) = (t, rest) := Option.some.inj hsp
        have ht : t2 = t := congrArg Prod.fst hsome
        subst ht
        exact ⟨List.mem_cons_of_mem _ h1, h2⟩

/-! ### Claim theorems: ConfigStore -/

/-- C5: a persisted registry whose contents are not (valid, schema
conforming) JSON loads as the empty default Config without raising —
`readConfig` is total and its `catch` branch returns the default — and
the corrupted file on disk is rewritten to the serialized default. -/
theorem C5_corrupt_registry_resets (home s : String) (d : Disk)
    (hfile : readDisk d (CONFIG_PATH home) = some (.junk s)) :
    (readConfig home d).1 = DEFAULT_CONFIG ∧
    readDisk (readConfig home d).2 (CONFIG_PATH home) = some (.conf DEFAULT_CONFIG) := by
  unfold readConfig
  dsimp only
  rw [readDisk_ensure, hfile]
  refine ⟨rfl, ?_⟩
  unfold writeConfig
  exact readDisk_write_same _ _ _

/-- Witness for C5 at a concrete one-file disk holding junk at the
config path. -/
theorem C5_corrupt_registry_resets_witness :
    readDisk (Disk.mk [("h/.skills/config.json", .junk "oops")] []) (CONFIG_PATH "h") =
      some (.junk "oops") ∧
    (readConfig "h" (Disk.mk [("h/.skills/config.json", .junk "oops")] [])).1 =
      DEFAULT_CONFIG := by
  have happ := C5_corrupt_registry_resets "h" "oops"
    (Disk.mk [("h/.skills/config.json", .junk "oops")] []) (by decide)
  exact ⟨by decide, happ.1⟩

/-- C6: adding a second source with an already registered name fails
with the name-collision error and persists nothing: the disk is exactly
the one the first call produced, and the registry holds exactly one
source of that name. -/
theorem C6_add_source_name_collision (home : String) (d d1 : Disk) (s1 s2 : Source)
    (hname : s2.name = s1.name)
    (h1 : addSource home s1 d = (.ok (), d1)) :
    addSource home s2 d1 =
      (.error ("Skill with name \"" ++ s2.name ++ "\" already exists"), d1) ∧
    ((readConfig home d1).1.sources.countP (fun e => e.name = s1.name)) = 1 := by
  unfold addSource at h1
  dsimp only at h1
  cases hfind : (readConfig home d).1.sources.find? (fun e => e.name = s1.name) with
  | some e =>
    rw [hfind] at h1
    simp at h1
  | none =>
    rw [hfind] at h1
    simp only [Prod.mk.injEq] at h1
    obtain ⟨-, hd1⟩ := h1
    have hcfg : readConfig home d1 =
        ({ (readConfig home d).1 with
            sources := (readConfig home d).1.sources ++ [s1] }, d1) := by
      rw [← hd1]
      exact readConfig_writeConfig home _ _
    constructor
    · unfold addSource
      rw [hcfg]
      simp only
      have hfind2 : ((readConfig home d).1.sources ++ [s1]).find?
          (fun e => e.name = s2.name) = some s1 := by
        rw [List.find?_append]
        have hl : (readConfig home d).1.sources.find? (fun e => e.name = s2.name) = none := by
          rw [List.find?_eq_none] at hfind ⊢
          intro x hx
          have := hfind x hx
          simpa [hname] using this
        rw [hl]
        simp [hname]
      rw [hfind2]
    · rw [hcfg]
      simp only
      rw [List.countP_append]
      have hzero : (readConfig home d).1.sources.countP (fun e => e.name = s1.name) = 0 := by
        rw [List.countP_eq_zero]
        rw [List.find?_eq_none] at hfind
        exact hfind
      rw [hzero]
      simp

/-- Witness for C6: two sources named `repo` against an empty disk. -/
theorem C6_add_source_name_collision_witness :
    addSource "h" (Source.mk .local none (some "/p") "repo")
        ((addSource "h" (Source.mk .remote (some "u") none "repo") (Disk.mk [] [])).2) =
      (.error "Skill with name \"repo\" already exists",
        (addSource "h" (Source.mk .remote (some "u") none "repo") (Disk.mk [] [])).2) ∧
    ((readConfig "h"
        ((addSource "h" (Source.mk .remote (some "u") none "repo") (Disk.mk [] [])).2)).1.sources.countP
      (fun e => e.name = "repo")) = 1 := by
  have happ := C6_add_source_name_collision "h" (Disk.mk [] [])
    ((addSource "h" (Source.mk .remote (some "u") none "repo") (Disk.mk [] [])).2)
    (Source.mk .remote (some "u") none "repo")
    (Source.mk .local none (some "/p") "repo") rfl (by rfl)
  exact happ

/-- C10 (counterexample): the claim fails in two reachable ways. First
half: it quantifies over every registered target, and a target whose
directory contains the registry itself has a file inside it (the config
file) rewritten by `targetRemove` — with target path `h/.skills`, the
config file `h/.skills/config.json` lies under the target path and its
contents change. Second half: on a legacy-schema registry, the
`readConfig` call inside `targetRemove` runs the one-time namespace
migration, which renames `store/owner/skill` to `store/skill` and
removes the emptied `store/owner` — mutating disk state that is neither
a registry path nor anywhere near the target's directory `w/tgt`, so
`targetRemove` does NOT mutate only the registry. -/
theorem C10_counterexample :
    underPath "h/.skills" (CONFIG_PATH "h") = true ∧
    targetRemove "h" "t"
        (Disk.mk [(CONFIG_PATH "h", .conf (Config.mk [] [Target.mk "t" "h/.skills"]))]
          ["h/.skills", "h/.skills/store"]) =
      .ok (Target.mk "t" "h/.skills",
        Disk.mk [(CONFIG_PATH "h", .conf (Config.mk [] []))]
          ["h/.skills", "h/.skills/store"]) ∧
    readDisk (Disk.mk [(CONFIG_PATH "h", .conf (Config.mk [] []))]
        ["h/.skills", "h/.skills/store"]) (CONFIG_PATH "h") ≠
      readDisk (Disk.mk [(CONFIG_PATH "h", .conf (Config.mk [] [Target.mk "t" "h/.skills"]))]
          ["h/.skills", "h/.skills/store"]) (CONFIG_PATH "h") ∧
    targetRemove "h" "t"
        (Disk.mk
          [(CONFIG_PATH "h", .legacy (LegacyConfig.mk
              [LegacySource.mk .remote (some "u") none none (some "owner/skill")]
              [Target.mk "t" "w/tgt"])),
           ("h/.skills/store/owner/skill/SKILL.md", .junk "skill body")]
          ["h/.skills", "h/.skills/store", "h/.skills/store/owner",
           "h/.skills/store/owner/skill", "w/tgt"]) =
      .ok (Target.mk "t" "w/tgt",
        Disk.mk
          [(CONFIG_PATH "h", .conf (Config.mk
              [Source.mk .remote (some "u") none "skill"] [])),
           ("h/.skills/store/skill/SKILL.md", .junk "skill body")]
          ["h/.skills", "h/.skills/store", "h/.skills/store/skill", "w/tgt"]) ∧
    underPath "w/tgt" "h/.skills/store/owner/skill/SKILL.md" = false ∧
    "h/.skills/store/owner/skill/SKILL.md" ∉ registryPaths "h" ∧
    readDisk (Disk.mk
        [(CONFIG_PATH "h", .conf (Config.mk
            [Source.mk .remote (some "u") none "skill"] [])),
         ("h/.skills/store/skill/SKILL.md", .junk "skill body")]
        ["h/.skills", "h/.skills/store", "h/.skills/store/skill", "w/tgt"])
      "h/.skills/store/owner/skill/SKILL.md" = none ∧
    "h/.skills/store/owner" ∉
      (Disk.mk
        [(CONFIG_PATH "h", .conf (Config.mk
            [Source.mk .remote (some "u") none "skill"] [])),
         ("h/.skills/store/skill/SKILL.md", .junk "skill body")]
        ["h/.skills", "h/.skills/store", "h/.skills/store/skill", "w/tgt"]).dirs := by
  refine ⟨by decide, by rfl, by decide, by rfl, by decide, by decide, by decide, by decide⟩

/-- C10 (amended): when the persisted registry is in the current schema
(no legacy `namespace` entries, the steady state after the one-time
migration has run), `targetRemove` mutates only the registry paths (the
registry root, the store root and the config file): every other path —
in particular the target's directory and everything in it, whenever the
registry does not live inside the target directory — keeps its file
contents and its directory-existence status, and the removed Target
record (with its path) is returned. On a legacy-schema registry the
load step additionally performs the migration, which moves store
subdirectories (see the counterexample's second half). -/
theorem C10_remove_target_frame (home nm : String) (d : Disk) (t : Target) (d2 : Disk)
    (hschema : isLegacyFile (readDisk d (CONFIG_PATH home)) = false)
    (hok : targetRemove home nm d = .ok (t, d2)) :
    t.name = nm ∧ t ∈ (readConfig home d).1.targets ∧
    ∀ p, p ∉ registryPaths home →
      (readDisk d2 p = readDisk d p ∧ (p ∈ d2.dirs ↔ p ∈ d.dirs)) := by
  unfold targetRemove removeTarget at hok
  dsimp only at hok
  cases hsp : spliceTarget nm (readConfig home d).1.targets with
  | none =>
    rw [hsp] at hok
    simp at hok
  | some pr =>
    obtain ⟨t0, rest⟩ := pr
    rw [hsp] at hok
    simp only [Except.ok.injEq, Prod.mk.injEq] at hok
    obtain ⟨rfl, hd2⟩ := hok
    obtain ⟨hmem, hnm⟩ := spliceTarget_spec hsp
    refine ⟨hnm, hmem, ?_⟩
    intro p hp
    obtain ⟨hw1, hw2⟩ := writeConfig_frame home
      { (readConfig home d).1 with targets := rest } (readConfig home d).2 p hp
    obtain ⟨hr1, hr2⟩ := readConfig_frame home d p hp hschema
    rw [← hd2]
    exact ⟨hw1.trans hr1, hw2.trans hr2⟩

/-- Witness for the amended C10: removing target `t` (path `w/tgt`)
leaves the unrelated file `w/tgt/file.md` and the directory `w/tgt`
untouched, and returns the removed record. -/
theorem C10_remove_target_frame_witness :
    (Target.mk "t" "w/tgt").name = "t" ∧
    readDisk (Disk.mk [("h/.skills/config.json", .conf (Config.mk [] [])),
        ("w/tgt/file.md", .junk "keep")] ["h/.skills", "h/.skills/store", "w/tgt"])
      "w/tgt/file.md" =
    readDisk (Disk.mk [("h/.skills/config.json", .conf (Config.mk [] [Target.mk "t" "w/tgt"])),
        ("w/tgt/file.md", .junk "keep")] ["h/.skills", "h/.skills/store", "w/tgt"])
      "w/tgt/file.md" ∧
    ("w/tgt" ∈ (Disk.mk [("h/.skills/config.json", .conf (Config.mk [] [])),
        ("w/tgt/file.md", .junk "keep")] ["h/.skills", "h/.skills/store", "w/tgt"]).dirs ↔
      "w/tgt" ∈ (Disk.mk [("h/.skills/config.json", .conf (Config.mk [] [Target.mk "t" "w/tgt"])),
        ("w/tgt/file.md", .junk "keep")] ["h/.skills", "h/.skills/store", "w/tgt"]).dirs) := by
  have happ := C10_remove_target_frame "h" "t"
    (Disk.mk [("h/.skills/config.json", .conf (Config.mk [] [Target.mk "t" "w/tgt"])),
        ("w/tgt/file.md", .junk "keep")] ["h/.skills", "h/.skills/store", "w/tgt"])
    (Target.mk "t" "w/tgt")
    (Disk.mk [("h/.skills/config.json", .conf (Config.mk [] [])),
        ("w/tgt/file.md", .junk "keep")] ["h/.skills", "h/.skills/store", "w/tgt"])
    (by decide) (by rfl)
  have hfile := happ.2.2 "w/tgt/file.md" (by decide)
  have hdir := happ.2.2 "w/tgt" (by decide)
  exact ⟨happ.1, hfile.1, hdir.2⟩

/-! ### Claim theorems: SyncEngine, GitIngestion, batches, parser -/

/-- C1 (code bug): `syncToTarget` only no-ops when the store root is
MISSING — `directoryExists` checks existence, not content, despite its
own doc comment ("exists and is not empty") and the call-site comment
("Check if store has content"). First conjunct: with the store root
absent the claimed behavior holds (no-op notice, target contents kept).
Second conjunct, the failing input: with the store root present but
EMPTY (the state `ensureDirectories` leaves a fresh install in), the
claim demands the same no-op, but the code wipes the target's
pre-existing file and reports `Synced`. -/
theorem C1_empty_store_wipes_target :
    (∀ nm : String,
      syncToTarget nm (SyncFs.mk none (some (.dir (.cons "notes.md" (.file "keep") .nil)))) =
        .ok (SyncFs.mk none (some (.dir (.cons "notes.md" (.file "keep") .nil))),
          "  " ++ nm ++ ": Store is empty, nothing to sync")) ∧
    syncToTarget "t" (SyncFs.mk (some (.dir .nil))
        (some (.dir (.cons "notes.md" (.file "keep") .nil)))) =
      .ok (SyncFs.mk (some (.dir .nil)) (some (.dir .nil)), "  t: Synced") := by
  exact ⟨fun nm => rfl, rfl⟩

/-- C2 (counterexample): a remote UPDATE that fails during the
subdirectory copy (for the really parsed tree URL) leaves the partially
created `targetStorePath` behind: `updateRemoteSource`'s catch removes
only the temporary clone path, so the final state still has
`target = true` even though a `Failed to clone:` error is surfaced. -/
theorem C2_counterexample :
    parseGitUrl "https://github.com/owner/repo/tree/main/skills/my-skill" =
      some (ParsedGitUrl.mk "github.com" "owner" "repo" (some "main") (some "skills/my-skill")
        "https://github.com/owner/repo.git") ∧
    updateRemoteSourceCore
        (ParsedGitUrl.mk "github.com" "owner" "repo" (some "main") (some "skills/my-skill")
          "https://github.com/owner/repo.git")
        (GitEnv.mk none false none none none (some "ENOSPC: no space left on device") true
          none false)
        (CloneFs.mk false false) =
      (.error "Failed to clone: ENOSPC: no space left on device", CloneFs.mk true false) := by
  exact ⟨by decide, by rfl⟩

/-- C2 (amended): on a clone failure at any step, `addRemoteSource`
removes BOTH the partially created target store path and the temporary
clone path before surfacing a `Failed to clone repository:` error that
includes the underlying cause; `updateRemoteSource` removes ONLY the
temporary clone path before its `Failed to clone:` error — the partial
target store path may survive. -/
theorem C2_clone_failure_cleanup (parsed : ParsedGitUrl) (env : GitEnv) (fs : CloneFs)
    (e : String) :
    (fs.target = false →
      (addRemoteSourceCore parsed env fs).1 = .error e →
      (∃ cause, e = "Failed to clone repository: " ++ cause) ∧
      (addRemoteSourceCore parsed env fs).2.target = false ∧
      (addRemoteSourceCore parsed env fs).2.temp = false) ∧
    ((updateRemoteSourceCore parsed env fs).1 = .error e →
      (∃ cause, e = "Failed to clone: " ++ cause) ∧
      (updateRemoteSourceCore parsed env fs).2.temp = false) := by
  constructor
  · intro hft herr
    cases hbody : cloneBody parsed env fs with
    | ok fs1 =>
      have hres : addRemoteSourceCore parsed env fs = (.ok (), fs1) := by
        unfold addRemoteSourceCore
        rw [hft]
        simp only [Bool.false_eq_true, if_false]
        rw [hbody]
      rw [hres] at herr
      simp at herr
    | error pr =>
      obtain ⟨cause, fsp⟩ := pr
      have hres : addRemoteSourceCore parsed env fs =
          (.error ("Failed to clone repository: " ++ cause),
            { fsp with target := false, temp := false }) := by
        unfold addRemoteSourceCore
        rw [hft]
        simp only [Bool.false_eq_true, if_false]
        rw [hbody]
      rw [hres] at herr
      have he : "Failed to clone repository: " ++ cause = e := Except.error.inj herr
      exact ⟨⟨cause, he.symm⟩, by rw [hres], by rw [hres]⟩
  · intro herr
    cases hbody : cloneBody parsed env { fs with target := false } with
    | ok fs1 =>
      have hres : updateRemoteSourceCore parsed env fs = (.ok (), fs1) := by
        unfold updateRemoteSourceCore
        dsimp only
        rw [hbody]
      rw [hres] at herr
      simp at herr
    | error pr =>
      obtain ⟨cause, fsp⟩ := pr
      have hres : updateRemoteSourceCore parsed env fs =
          (.error ("Failed to clone: " ++ cause), { fsp with temp := false }) := by
        unfold updateRemoteSourceCore
        dsimp only
        rw [hbody]
      rw [hres] at herr
      have he : "Failed to clone: " ++ cause = e := Except.error.inj herr
      exact ⟨⟨cause, he.symm⟩, by rw [hres]⟩

/-- Witness for the amended C2: a full clone failing with a network
error that leaves its directory behind. -/
theorem C2_clone_failure_cleanup_witness :
    ((∃ cause, ("Failed to clone repository: network failure" : String) =
        "Failed to clone repository: " ++ cause) ∧
      (addRemoteSourceCore
        (ParsedGitUrl.mk "github.com" "o" "r" none none "https://github.com/o/r.git")
        (GitEnv.mk none false none none none none false (some "network failure") true)
        (CloneFs.mk false false)).2.target = false ∧
      (addRemoteSourceCore
        (ParsedGitUrl.mk "github.com" "o" "r" none none "https://github.com/o/r.git")
        (GitEnv.mk none false none none none none false (some "network failure") true)
        (CloneFs.mk false false)).2.temp = false) ∧
    ((∃ cause, ("Failed to clone: network failure" : String) = "Failed to clone: " ++ cause) ∧
      (updateRemoteSourceCore
        (ParsedGitUrl.mk "github.com" "o" "r" none none "https://github.com/o/r.git")
        (GitEnv.mk none false none none none none false (some "network failure") true)
        (CloneFs.mk false false)).2.temp = false) := by
  constructor
  · exact (C2_clone_failure_cleanup
      (ParsedGitUrl.mk "github.com" "o" "r" none none "https://github.com/o/r.git")
      (GitEnv.mk none false none none none none false (some "network failure") true)
      (CloneFs.mk false false) "Failed to clone repository: network failure").1
      (by rfl) (by rfl)
  · exact (C2_clone_failure_cleanup
      (ParsedGitUrl.mk "github.com" "o" "r" none none "https://github.com/o/r.git")
      (GitEnv.mk none false none none none none false (some "network failure") true)
      (CloneFs.mk false false) "Failed to clone: network failure").2 (by rfl)

/-- C7: the batch `sync` and `update` loops isolate per-item failures:
for EVERY per-item behavior (including ones that fail), each item is
processed, its outcome (success or the caught message) is recorded
against its own name in order, and the batch completes — the result is
a total list with one entry per item, never an exception escaping past
a failing item. -/
theorem C7_batch_failure_isolation :
    ∀ (f : Target → Except String Unit) (fr fl : String → String → Except String Unit)
      (targets : List Target) (sources : List Source),
      targets ≠ [] → sources ≠ [] →
      sync f true targets = targets.map (fun t => (t.name, toOutcome (f t))) ∧
      update fr fl sources = sources.map (fun s => (s.name, toOutcome (match s.kind with
        | .remote => fr s.name (s.url.getD "")
        | .local => fl s.name (s.path.getD "")))) := by
  intro f fr fl targets sources ht hs
  constructor
  · unfold sync
    rw [if_neg (by simpa using ht), if_neg (by decide)]
    clear ht
    induction targets with
    | nil => rfl
    | cons t rest ih => simp [syncLoop, ih]
  · unfold update
    rw [if_neg (by simpa using hs)]
    clear hs
    induction sources with
    | nil => rfl
    | cons s rest ih => simp [updateLoop, ih]

/-- Witness for C7: a two-target sync whose first item fails and a
two-source update whose remote refresh fails; every item still gets an
outcome. -/
theorem C7_batch_failure_isolation_witness :
    sync (fun t => if t.name = "a" then .error "boom" else .ok ()) true
        [Target.mk "a" "/a", Target.mk "b" "/b"] =
      [("a", some "boom"), ("b", none)] ∧
    update (fun _ _ => .error "fail") (fun _ _ => .ok ())
        [Source.mk .remote (some "u") none "s1", Source.mk .local none (some "/p") "s2"] =
      [("s1", some "fail"), ("s2", none)] := by
  have happ := C7_batch_failure_isolation
    (fun t => if t.name = "a" then .error "boom" else .ok ())
    (fun _ _ => .error "fail") (fun _ _ => .ok ())
    [Target.mk "a" "/a", Target.mk "b" "/b"]
    [Source.mk .remote (some "u") none "s1", Source.mk .local none (some "/p") "s2"]
    (by decide) (by decide)
  exact ⟨happ.1.trans (by rfl), happ.2.trans (by rfl)⟩

/-- C8: the parser chain maps the plain GitHub HTTPS URL to exactly the
claimed record (no branch, no subdir, `.git`-normalized clone URL), and
no matcher in the GitHub, GitLab, Bitbucket or generic chain accepts
`"not-a-url"` or the empty string. -/
theorem C8_parse_url_examples :
    parseGitUrl "https://github.com/owner/repo" =
      some (ParsedGitUrl.mk "github.com" "owner" "repo" none none
        "https://github.com/owner/repo.git") ∧
    parseGitUrl "not-a-url" = none ∧
    parseGitUrl "" = none := by
  exact ⟨by decide, by decide, by decide⟩

end SkillsCli
